import Mathlib

/-
Verification development for the Mindustry server-list prober.

The repository consists of two JavaScript variants of the same pipeline
(`src/unnamed/part_000`, called "v0" below, and `src/unnamed/part_001`,
called "v1" below) plus a small download helper.  This file gives a shallow
embedding of the data model and the operations the claims are about:

* JavaScript strings are modelled as `List Char`; strings that are really
  byte buffers (UDP payloads, the fields extracted by the binary decoder,
  which in the source are produced by `Buffer.toString('utf-8')`) are
  modelled as their byte sequences, `List Nat`, with every byte < 256.
  All the string transformations the decoder performs (`replace("[]", " ")`,
  the color-tag regexes) only match ASCII characters, and in UTF-8 every
  byte of a multi-byte character is ≥ 0x80, so pattern matching on bytes
  agrees with pattern matching on decoded characters for these patterns.
* JavaScript numbers appear as `Nat` (timestamps, ports of inbound
  datagrams, byte values) or as `Option Int` where `parseInt` can produce
  `NaN` (`none` models `NaN`).
* JavaScript objects used as insertion-ordered maps (`responses`,
  `hostPortMap`, `results`) are modelled as association lists
  `List (key × value)` in insertion order; all keys involved contain `':'`
  and hence are never JS array indices, so JS preserves insertion order.
* `Array.prototype.sort` is stable (ECMAScript 2019+) and the comparators
  used are consistent, so it is modelled by a stable insertion sort.
* Fallible code (`parseServerInfo`, which can throw `RangeError` from
  `Buffer.readUInt8`, and `parseHexPayload`, which throws on non-hex
  input) is modelled with `Except`.
-/

/-! ### Decimal rendering of numbers (template-literal `${n}` interpolation) -/

/-- Character for a decimal digit; only used with `d < 10`. -/
def digitChar (d : Nat) : Char :=
  match d with
  | 0 => '0' | 1 => '1' | 2 => '2' | 3 => '3' | 4 => '4'
  | 5 => '5' | 6 => '6' | 7 => '7' | 8 => '8' | _ => '9'

/-- Fuel-driven decimal rendering of a natural number (structural recursion on
the fuel so that the kernel can evaluate it). -/
def natCharsA : Nat → Nat → List Char
  | 0, _ => []
  | f + 1, n => if n < 10 then [digitChar n] else natCharsA f (n / 10) ++ [digitChar (n % 10)]

/-- Decimal rendering of a natural number, as produced by JS template literals. -/
def natChars (n : Nat) : List Char := natCharsA (n + 1) n

/-- Numeric value of a digit character. -/
def chNat (c : Char) : Nat := c.toNat - 48

/-- Value of a list of decimal digit characters. -/
def charsVal (l : List Char) : Nat := l.foldl (fun a c => 10 * a + chNat c) 0

theorem natCharsA_fuel (f g n : Nat) (hf : n < f) (hg : n < g) :
    natCharsA f n = natCharsA g n := by
  induction f generalizing g n with
  | zero => omega
  | succ f ih =>
    cases g with
    | zero => omega
    | succ g =>
      simp only [natCharsA]
      by_cases h : n < 10
      · simp [h]
      · simp only [h, if_false]
        have hd : n / 10 < n := Nat.div_lt_self (by omega) (by omega)
        rw [ih g (n / 10) (by omega) (by omega)]

theorem natChars_eq_natCharsA (f n : Nat) (hf : n < f) :
    natChars n = natCharsA f n := by
  exact natCharsA_fuel (n + 1) f n (Nat.lt_succ_self n) hf

theorem charsVal_concat (l : List Char) (c : Char) :
    charsVal (l ++ [c]) = 10 * charsVal l + chNat c := by
  simp [charsVal, List.foldl_append]

theorem chNat_digitChar (d : Nat) (hd : d < 10) : chNat (digitChar d) = d := by
  interval_cases d <;> decide

theorem charsVal_natCharsA (f n : Nat) (hf : n < f) :
    charsVal (natCharsA f n) = n := by
  induction f generalizing n with
  | zero => omega
  | succ f ih =>
    simp only [natCharsA]
    by_cases h : n < 10
    · simp [h, charsVal, chNat_digitChar n h]
    · simp only [h, if_false]
      have hd : n / 10 < n := Nat.div_lt_self (by omega) (by omega)
      rw [charsVal_concat, ih (n / 10) (by omega), chNat_digitChar (n % 10) (by omega)]
      omega

theorem charsVal_natChars (n : Nat) : charsVal (natChars n) = n :=
  charsVal_natCharsA (n + 1) n (Nat.lt_succ_self n)

theorem natChars_injective (m n : Nat) (h : natChars m = natChars n) : m = n := by
  have := charsVal_natChars m
  rw [h, charsVal_natChars] at this
  omega

theorem mem_natCharsA_digit (f n : Nat) (c : Char) (hc : c ∈ natCharsA f n) :
    ∃ d, d < 10 ∧ c = digitChar d := by
  induction f generalizing n with
  | zero => simp [natCharsA] at hc
  | succ f ih =>
    simp only [natCharsA] at hc
    by_cases h : n < 10
    · simp [h] at hc
      exact ⟨n, h, hc⟩
    · simp only [h, if_false, List.mem_append, List.mem_singleton] at hc
      rcases hc with hc | hc
      · exact ih (n / 10) hc
      · exact ⟨n % 10, Nat.mod_lt _ (by omega), hc⟩

theorem digit_ne_colon (d : Nat) (hd : d < 10) : digitChar d ≠ ':' := by
  interval_cases d <;> decide

theorem colon_not_mem_natChars (n : Nat) : ':' ∉ natChars n := by
  intro h
  obtain ⟨d, hd, hc⟩ := mem_natCharsA_digit (n + 1) n ':' h
  exact digit_ne_colon d hd hc.symm

theorem natCharsA_ne_nil (f n : Nat) (hf : n < f) : natCharsA f n ≠ [] := by
  cases f with
  | zero => omega
  | succ f =>
    simp only [natCharsA]
    by_cases h : n < 10 <;> simp [h]

theorem natChars_ne_nil (n : Nat) : natChars n ≠ [] :=
  natCharsA_ne_nil (n + 1) n (Nat.lt_succ_self n)

/-! ### JS `parseInt` (radix auto-detection, leading-digits parsing, `NaN` as `none`) -/

/-- Whitespace characters stripped by `parseInt` before parsing. -/
def isJsWs (c : Char) : Bool := c = ' ' ∨ c = '\t' ∨ c = '\n' ∨ c = '\r'

/-- Hexadecimal digit test. -/
def isHexChar (c : Char) : Bool :=
  ('0' ≤ c ∧ c ≤ '9') ∨ ('a' ≤ c ∧ c ≤ 'f') ∨ ('A' ≤ c ∧ c ≤ 'F')

/-- Value of one hexadecimal digit character. -/
def hexDigitVal (c : Char) : Nat :=
  if '0' ≤ c ∧ c ≤ '9' then c.toNat - 48
  else if 'a' ≤ c ∧ c ≤ 'f' then c.toNat - 87
  else c.toNat - 55

/-- Value of a list of hexadecimal digit characters. -/
def hexVal (l : List Char) : Nat := l.foldl (fun a c => 16 * a + hexDigitVal c) 0

/-- Leading decimal digits interpretation used by `parseInt`: take the longest
prefix of decimal digits; no digits means `NaN`. -/
def decFromDigits (sign : Int) (l : List Char) : Option Int :=
  let ds := l.takeWhile fun c => decide ('0' ≤ c ∧ c ≤ '9')
  if ds = [] then none else some (sign * (charsVal ds : Int))

/-- Model of JS `parseInt(s)` with the default radix behaviour: skip leading
whitespace, read an optional sign, detect a `0x`/`0X` prefix (hexadecimal),
otherwise parse the longest prefix of decimal digits; `none` models `NaN`. -/
def jsParseInt (s : List Char) : Option Int :=
  let s1 := s.dropWhile isJsWs
  let p : Int × List Char :=
    match s1 with
    | '-' :: r => (-1, r)
    | '+' :: r => (1, r)
    | _ => (1, s1)
  match p.2 with
  | '0' :: x :: r =>
      if x = 'x' ∨ x = 'X' then
        let ds := r.takeWhile isHexChar
        if ds = [] then none else some (p.1 * (hexVal ds : Int))
      else decFromDigits p.1 p.2
  | _ => decFromDigits p.1 p.2

/-- Rendering of a JS number as a string: `NaN` renders as `"NaN"`, negative
integers with a leading minus sign; this is how `${server.port}` interpolates. -/
def numChars (p : Option Int) : List Char :=
  match p with
  | none => ['N', 'a', 'N']
  | some i => if i < 0 then '-' :: natChars i.natAbs else natChars i.natAbs

theorem colon_not_mem_numChars (p : Option Int) : ':' ∉ numChars p := by
  cases p with
  | none => decide
  | some i =>
    simp only [numChars]
    by_cases h : i < 0
    · simp only [h, if_true, List.mem_cons]
      rintro (h1 | h1)
      · exact absurd h1.symm (by decide)
      · exact colon_not_mem_natChars _ h1
    · simp only [h, if_false]
      exact colon_not_mem_natChars _

theorem numChars_eq_natChars_iff (po : Option Int) (p : Nat) :
    numChars po = natChars p ↔ po = some (p : Int) := by
  constructor
  · intro h
    cases po with
    | none =>
      exfalso
      have : 'N' ∈ natChars p := by rw [← h]; simp [numChars]
      obtain ⟨d, hd, hc⟩ := mem_natCharsA_digit (p + 1) p 'N' this
      interval_cases d <;> simp [digitChar] at hc
    | some i =>
      simp only [numChars] at h
      by_cases hneg : i < 0
      · exfalso
        simp only [hneg, if_true] at h
        have : '-' ∈ natChars p := by rw [← h]; exact List.mem_cons_self _ _
        obtain ⟨d, hd, hc⟩ := mem_natCharsA_digit (p + 1) p '-' this
        interval_cases d <;> simp [digitChar] at hc
      · simp only [hneg, if_false] at h
        have := natChars_injective _ _ h
        congr 1
        omega
  · rintro rfl
    simp [numChars, Int.natAbs_ofNat]

/-! ### JS `String.prototype.split` on a single character -/

/-- Model of `s.split(sep)` for a one-character separator. -/
def splitChar (sep : Char) : List Char → List (List Char)
  | [] => [[]]
  | c :: rest =>
      if c = sep then [] :: splitChar sep rest
      else
        match splitChar sep rest with
        | s :: ss => (c :: s) :: ss
        | [] => [[c]]

theorem splitChar_ne_nil (sep : Char) (l : List Char) : splitChar sep l ≠ [] := by
  cases l with
  | nil => simp [splitChar]
  | cons c rest =>
    simp only [splitChar]
    by_cases h : c = sep
    · simp [h]
    · simp only [h, if_false]
      cases splitChar sep rest <;> simp

theorem splitChar_exists_cons (sep : Char) (l : List Char) :
    ∃ s ss, splitChar sep l = s :: ss := by
  cases hq : splitChar sep l with
  | nil => exact absurd hq (splitChar_ne_nil sep l)
  | cons s ss => exact ⟨s, ss, rfl⟩

/-- The first segment of a split is the longest prefix free of the separator. -/
theorem splitChar_head (sep : Char) (l : List Char) :
    (splitChar sep l).headI = l.takeWhile (fun c => decide (c ≠ sep)) := by
  induction l with
  | nil => simp [splitChar]
  | cons c rest ih =>
    by_cases h : c = sep
    · simp [splitChar, h, List.takeWhile]
    · obtain ⟨s, ss, hsp⟩ := splitChar_exists_cons sep rest
      simp only [splitChar, h, if_false, hsp, List.takeWhile]
      rw [hsp] at ih
      simp only [List.headI] at ih ⊢
      simp [h, ih]

/-- The second segment of a split of a string containing the separator is the
text between the first and second separator occurrences. -/
theorem splitChar_second (sep : Char) (l : List Char) (hmem : sep ∈ l) :
    (splitChar sep l).getD 1 [] =
      ((l.dropWhile (fun c => decide (c ≠ sep))).tail).takeWhile (fun c => decide (c ≠ sep)) := by
  induction l with
  | nil => simp at hmem
  | cons c rest ih =>
    by_cases h : c = sep
    · obtain ⟨s, ss, hsp⟩ := splitChar_exists_cons sep rest
      have hhead := splitChar_head sep rest
      rw [hsp] at hhead
      simp only [List.headI] at hhead
      subst h
      simp only [splitChar, if_true, List.dropWhile]
      simp only [show (decide ¬c = c) = false by simp, List.tail_cons, List.getD,
        List.get?_cons_succ, hsp, List.get?_cons_zero, Option.getD_some]
      exact hhead
    · have hm : sep ∈ rest := by
        rcases List.mem_cons.mp hmem with h1 | h1
        · exact absurd h1.symm h
        · exact h1
      obtain ⟨s, ss, hsp⟩ := splitChar_exists_cons sep rest
      simp only [splitChar, h, if_false, hsp, List.dropWhile]
      rw [hsp] at ih
      simp only [show (decide ¬c = sep) = true by simpa using h, if_true]
      simpa using ih hm

/-- Segments produced by a split never contain the separator. -/
theorem splitChar_sep_not_mem (sep : Char) (l : List Char) :
    ∀ seg ∈ splitChar sep l, sep ∉ seg := by
  induction l with
  | nil => simp [splitChar]
  | cons c rest ih =>
    by_cases h : c = sep
    · simp only [splitChar, h, if_true]
      intro seg hseg
      rcases List.mem_cons.mp hseg with h1 | h1
      · simp [h1]
      · exact ih seg h1
    · obtain ⟨s, ss, hsp⟩ := splitChar_exists_cons sep rest
      simp only [splitChar, h, if_false, hsp]
      intro seg hseg
      rcases List.mem_cons.mp hseg with h1 | h1
      · subst h1
        intro hx
        rcases List.mem_cons.mp hx with h2 | h2
        · exact h (h2.symm)
        · exact ih s (by rw [hsp]; exact List.mem_cons_self _ _) h2
      · exact ih seg (by rw [hsp]; exact List.mem_cons_of_mem _ h1)

/-! ### Suffix matching (`String.prototype.endsWith`) -/

/-- Model of `key.endsWith(suffix)`. -/
def jsEndsWith (l suf : List Char) : Bool := decide (suf <:+ l)

/-- A suffix of the shape `':' :: C` matches a string of the shape
`A ++ ':' :: B`, with `B` and `C` free of `':'`, exactly when `B = C`.
This is the heart of the port-based secondary correlation in
`sendUDPRequests` (v0): `k.endsWith(":" + rinfo.port)` tests the port part. -/
theorem colon_suffix_iff (A B C : List Char) (hB : ':' ∉ B) (hC : ':' ∉ C) :
    (':' :: C) <:+ (A ++ ':' :: B) ↔ B = C := by
  constructor
  · intro h
    induction A with
    | nil =>
      rw [List.nil_append] at h
      rcases List.suffix_cons_iff.mp h with h1 | h1
      · injection h1 with _ h2
        exact h2.symm
      · exact absurd (h1.mem (List.mem_cons_self ':' C)) hB
    | cons a A ih =>
      rw [List.cons_append] at h
      rcases List.suffix_cons_iff.mp h with h1 | h1
      · exfalso
        injection h1 with _ h2
        apply hC
        rw [h2]
        exact List.mem_append.mpr (Or.inr (List.mem_cons_self _ _))
      · exact ih h1
  · rintro rfl
    exact ⟨A, rfl⟩

/-! ### Color-tag rewriting (`text.replace(config.colorTagRegex, "{$1}")`)

The v0 regex is `/\[([a-z0-9#]+)\]/g`: a literal `[`, a nonempty run of
characters from the class, a literal `]`, replaced by `{run}`.  Because the
character after the run must be `]` and every shorter backtracking candidate
still ends on a class character, the regex matches at a position exactly when
the maximal class run after `[` is nonempty and is followed by `]`.  The global
scan replaces the leftmost match and resumes after it.  The engine below is
generic in the token class and the four delimiter symbols so that the same
development serves the `List Char` and byte-level instances. -/

section TagRewrite

variable {α : Type} [DecidableEq α]

/-- Attempt the regex tail `([class]+)\]` at the start of `l`: the maximal
class run, which must be nonempty and followed by the closing symbol `rb`. -/
def tagSplit (isTag : α → Bool) (rb : α) (l : List α) : Option (List α × List α) :=
  if l.takeWhile isTag = [] then none
  else
    match l.drop (l.takeWhile isTag).length with
    | r :: rest => if r = rb then some (l.takeWhile isTag, rest) else none
    | [] => none

/-- Global regex replace driven by a pluggable head-match function: scan left
to right; on a match emit `ob ++ token ++ cb` and resume after the match.  The
fuel argument (structurally decreasing) makes the definition kernel-evaluable;
fuel `≥ length` always suffices. -/
def rtAuxG (split : List α → Option (List α × List α)) (lb ob cb : α) :
    Nat → List α → List α
  | _, [] => []
  | 0, l => l
  | f + 1, c :: rest =>
    if c = lb then
      match split rest with
      | some (tok, rest2) => ob :: (tok ++ cb :: rtAuxG split lb ob cb f rest2)
      | none => c :: rtAuxG split lb ob cb f rest
    else c :: rtAuxG split lb ob cb f rest

/-- The rewrite for a class-run regex such as v0's `/\[([a-z0-9#]+)\]/g`. -/
def rtAux (isTag : α → Bool) (lb rb ob cb : α) : Nat → List α → List α :=
  rtAuxG (tagSplit isTag rb) lb ob cb

/-- No position of `l` starts a regex match (`lb` followed by a successful
tail match). -/
def noTags (isTag : α → Bool) (lb rb : α) : List α → Bool
  | [] => true
  | c :: rest => (decide (c ≠ lb) || (tagSplit isTag rb rest).isNone) && noTags isTag lb rb rest

theorem tagSplit_eq_some (isTag : α → Bool) (rb : α) (l tok rest2 : List α)
    (h : tagSplit isTag rb l = some (tok, rest2)) :
    tok = l.takeWhile isTag ∧ tok ≠ [] ∧ l = tok ++ rb :: rest2 := by
  unfold tagSplit at h
  by_cases htok : l.takeWhile isTag = []
  · simp [htok] at h
  · simp only [htok, if_false] at h
    obtain ⟨z, hz⟩ := List.takeWhile_prefix (l := l) isTag
    have hdrop : l.drop (l.takeWhile isTag).length = z := by
      have h2 := List.drop_left (l.takeWhile isTag) z
      rw [hz] at h2
      exact h2
    rw [hdrop] at h
    cases z with
    | nil => simp at h
    | cons r rest =>
      by_cases hr : r = rb
      · simp only [hr, if_true, Option.some.injEq, Prod.mk.injEq] at h
        obtain ⟨h1, h2⟩ := h
        refine ⟨h1.symm, by rw [← h1]; exact htok, ?_⟩
        rw [← hz, h1, h2, hr]
      · simp [hr] at h

theorem tagSplit_none_of_head_not_tag (isTag : α → Bool) (rb : α) (l : List α)
    (h : match l.head? with | some c => isTag c = false | none => True) :
    tagSplit isTag rb l = none := by
  cases l with
  | nil => rfl
  | cons c rest =>
    simp only [List.head?] at h
    unfold tagSplit
    simp [List.takeWhile_cons, h]

/-- Fuel does not matter as long as it is at least the length. -/
theorem rtAux_fuel (isTag : α → Bool) (lb rb ob cb : α) (f g : Nat) (l : List α)
    (hf : l.length ≤ f) (hg : l.length ≤ g) :
    rtAux isTag lb rb ob cb f l = rtAux isTag lb rb ob cb g l := by
  induction f generalizing g l with
  | zero =>
    have : l = [] := List.length_eq_zero.mp (Nat.le_zero.mp hf)
    subst this
    cases g <;> rfl
  | succ f ih =>
    cases l with
    | nil => cases g <;> rfl
    | cons c rest =>
      cases g with
      | zero => simp at hg
      | succ g =>
        simp only [rtAux, rtAuxG]
        by_cases hc : c = lb
        · simp only [hc, if_true]
          cases hsp : tagSplit isTag rb rest with
          | none =>
            dsimp only
            have := ih g rest (by simpa using Nat.le_of_succ_le_succ hf)
              (by simpa using Nat.le_of_succ_le_succ hg)
            simp only [rtAux] at this
            rw [this]
          | some pr =>
            obtain ⟨tok, rest2⟩ := pr
            dsimp only
            obtain ⟨_, htok, heq⟩ := tagSplit_eq_some isTag rb rest tok rest2 hsp
            have hlen : rest2.length ≤ rest.length := by
              rw [heq]; simp; omega
            have hr : rest.length ≤ f := by simpa using Nat.le_of_succ_le_succ hf
            have hr2 : rest.length ≤ g := by simpa using Nat.le_of_succ_le_succ hg
            have := ih g rest2 (Nat.le_trans hlen hr) (Nat.le_trans hlen hr2)
            simp only [rtAux] at this
            rw [this]
        · simp only [hc, if_false]
          have := ih g rest (by simpa using Nat.le_of_succ_le_succ hf)
            (by simpa using Nat.le_of_succ_le_succ hg)
          simp only [rtAux] at this
          rw [this]

/-- A prefix that never begins a match (no `lb` in it) passes through the
rewrite unchanged. -/
theorem rtAux_append_no_lb (isTag : α → Bool) (lb rb ob cb : α) (run z : List α)
    (hrun : ∀ x ∈ run, x ≠ lb) (f : Nat) (hf : run.length + z.length ≤ f) :
    rtAux isTag lb rb ob cb f (run ++ z) = run ++ rtAux isTag lb rb ob cb f z := by
  induction run generalizing f with
  | nil => simp
  | cons x run ih =>
    cases f with
    | zero => simp at hf
    | succ f =>
      have hx : x ≠ lb := hrun x (List.mem_cons_self _ _)
      simp only [List.cons_append, rtAux, rtAuxG, hx, if_false]
      have h1 : rtAuxG (tagSplit isTag rb) lb ob cb f (run ++ z) =
          run ++ rtAux isTag lb rb ob cb f z := by
        have := ih (fun y hy => hrun y (List.mem_cons_of_mem _ hy)) f (by simp at hf ⊢; omega)
        simpa [rtAux] using this
      simp only [List.append_eq]
      rw [h1]
      have h2 : rtAuxG (tagSplit isTag rb) lb ob cb f z =
          rtAuxG (tagSplit isTag rb) lb ob cb (f + 1) z := by
        have := rtAux_fuel isTag lb rb ob cb f (f + 1) z (by simp at hf; omega) (by omega)
        simpa [rtAux] using this
      simp only [rtAux]
      rw [h2]

end TagRewrite

section TagRewrite2

variable {α : Type} [DecidableEq α]

theorem drop_takeWhile_length (p : α → Bool) (l : List α) :
    l.drop (l.takeWhile p).length = l.dropWhile p := by
  have h := List.drop_left (l.takeWhile p) (l.dropWhile p)
  rw [List.takeWhile_append_dropWhile] at h
  exact h

theorem dropWhile_head_false (p : α → Bool) (l : List α) (e : α) (r : List α)
    (h : l.dropWhile p = e :: r) : p e = false := by
  have hh := List.head?_dropWhile_not p l
  rw [h] at hh
  simpa using hh

theorem takeWhile_append_all (p : α → Bool) (xs ys : List α)
    (hxs : ∀ x ∈ xs, p x = true) :
    (xs ++ ys).takeWhile p = xs ++ ys.takeWhile p := by
  induction xs with
  | nil => simp
  | cons x xs ih =>
    have hx : p x = true := hxs x (List.mem_cons_self _ _)
    simp only [List.cons_append, List.takeWhile_cons, hx, if_true, List.cons.injEq, true_and]
    exact ih fun y hy => hxs y (List.mem_cons_of_mem _ hy)

theorem noTags_append_of_ne (isTag : α → Bool) (lb rb : α) (pre t : List α)
    (hpre : ∀ x ∈ pre, x ≠ lb) (ht : noTags isTag lb rb t = true) :
    noTags isTag lb rb (pre ++ t) = true := by
  induction pre with
  | nil => simpa using ht
  | cons x pre ih =>
    have hx : x ≠ lb := hpre x (List.mem_cons_self _ _)
    simp only [List.cons_append, noTags, Bool.and_eq_true, Bool.or_eq_true]
    refine ⟨Or.inl (by simpa using hx), ?_⟩
    exact ih fun y hy => hpre y (List.mem_cons_of_mem _ hy)

/-- The output of one rewrite step on a nonempty input keeps the first symbol
or replaces it by the opening brace. -/
theorem rtAux_cons_shape (isTag : α → Bool) (lb rb ob cb : α) (f : Nat) (c : α)
    (rest : List α) :
    ∃ t, rtAux isTag lb rb ob cb (f + 1) (c :: rest) = c :: t ∨
      rtAux isTag lb rb ob cb (f + 1) (c :: rest) = ob :: t := by
  simp only [rtAux, rtAuxG]
  by_cases hc : c = lb
  · simp only [hc, if_true]
    cases tagSplit isTag rb rest with
    | none =>
      exact ⟨rtAuxG (tagSplit isTag rb) lb ob cb f rest, Or.inl rfl⟩
    | some pr =>
      obtain ⟨tok, rest2⟩ := pr
      exact ⟨tok ++ cb :: rtAuxG (tagSplit isTag rb) lb ob cb f rest2, Or.inr rfl⟩
  · simp only [hc, if_false]
    exact ⟨rtAuxG (tagSplit isTag rb) lb ob cb f rest, Or.inl rfl⟩

/-- Key lemma: if no match starts at the head of `l`, the rewrite of `l` does
not begin with a match either.  This is what makes a kept `lb` harmless. -/
theorem tagSplit_none_rtAux (isTag : α → Bool) (lb rb ob cb : α)
    (hlbT : isTag lb = false) (hobT : isTag ob = false)
    (hlbR : lb ≠ rb) (hobR : ob ≠ rb) :
    ∀ (f : Nat) (l : List α), l.length ≤ f → tagSplit isTag rb l = none →
      tagSplit isTag rb (rtAux isTag lb rb ob cb f l) = none := by
  intro f l hf hnone
  cases l with
  | nil =>
    cases f <;> rfl
  | cons d r2 =>
    cases f with
    | zero => simp at hf
    | succ f =>
      by_cases htag : isTag d = true
      · -- nonempty maximal run; the failure is after the run
        have htok : (d :: r2).takeWhile isTag ≠ [] := by
          simp [List.takeWhile_cons, htag]
        have hsplit : d :: r2 = (d :: r2).takeWhile isTag ++ (d :: r2).dropWhile isTag :=
          (List.takeWhile_append_dropWhile isTag (d :: r2)).symm
        have htoktag : ∀ x ∈ (d :: r2).takeWhile isTag, isTag x = true :=
          fun x hx => List.mem_takeWhile_imp hx
        have htoklb : ∀ x ∈ (d :: r2).takeWhile isTag, x ≠ lb := by
          intro x hx he
          rw [he] at hx
          exact absurd (htoktag lb hx) (by simp [hlbT])
        have hlen0 : (d :: r2).length =
            ((d :: r2).takeWhile isTag).length + ((d :: r2).dropWhile isTag).length := by
          have h2 := congrArg List.length hsplit
          rw [List.length_append] at h2
          exact h2
        have hout : rtAux isTag lb rb ob cb (f + 1) (d :: r2) =
            (d :: r2).takeWhile isTag ++
              rtAux isTag lb rb ob cb (f + 1) ((d :: r2).dropWhile isTag) := by
          conv_lhs => rw [hsplit]
          exact rtAux_append_no_lb isTag lb rb ob cb _ _ htoklb (f + 1) (by omega)
        rw [hout]
        rcases hdw : (d :: r2).dropWhile isTag with _ | ⟨e, r3⟩
        · -- nothing after the run at all
          have hnil : rtAux isTag lb rb ob cb (f + 1) ([] : List α) = [] := rfl
          rw [hnil, List.append_nil]
          have htw : ((d :: r2).takeWhile isTag).takeWhile isTag = (d :: r2).takeWhile isTag := by
            have h2 := takeWhile_append_all isTag ((d :: r2).takeWhile isTag) [] htoktag
            simpa using h2
          unfold tagSplit
          rw [htw, if_neg htok, List.drop_length]
        · -- the symbol after the run is not `rb` (else the original match succeeded)
          have herb : e ≠ rb := by
            intro he
            have hsome : tagSplit isTag rb (d :: r2) =
                some ((d :: r2).takeWhile isTag, r3) := by
              unfold tagSplit
              rw [if_neg htok, drop_takeWhile_length, hdw, he]
              simp
            rw [hsome] at hnone
            cases hnone
          have hef : isTag e = false := dropWhile_head_false isTag (d :: r2) e r3 hdw
          obtain ⟨t0, ht0⟩ := rtAux_cons_shape isTag lb rb ob cb f e r3
          have hhead : ∃ h0 t0x, rtAux isTag lb rb ob cb (f + 1) (e :: r3) = h0 :: t0x ∧
              isTag h0 = false ∧ h0 ≠ rb := by
            rcases ht0 with ht0 | ht0
            · exact ⟨e, t0, ht0, hef, herb⟩
            · exact ⟨ob, t0, ht0, hobT, hobR⟩
          obtain ⟨h0, t0x, hO, h0tag, h0rb⟩ := hhead
          rw [hO]
          unfold tagSplit
          have htw : (((d :: r2).takeWhile isTag) ++ h0 :: t0x).takeWhile isTag =
              (d :: r2).takeWhile isTag := by
            rw [takeWhile_append_all isTag _ _ htoktag]
            simp [List.takeWhile_cons, h0tag]
          rw [htw, if_neg htok, List.drop_left]
          simp [h0rb]
      · -- empty maximal run: the head of the output is not a tag
        simp only [Bool.not_eq_true] at htag
        obtain ⟨t0, ht0⟩ := rtAux_cons_shape isTag lb rb ob cb f d r2
        rcases ht0 with ht0 | ht0
        · rw [ht0]
          exact tagSplit_none_of_head_not_tag isTag rb _ (by simp [htag])
        · rw [ht0]
          exact tagSplit_none_of_head_not_tag isTag rb _ (by simp [hobT])

end TagRewrite2

section TagRewrite3

variable {α : Type} [DecidableEq α]

/-- After one rewrite pass, no position of the output starts a match. -/
theorem noTags_rtAux (isTag : α → Bool) (lb rb ob cb : α)
    (hlbT : isTag lb = false) (hobT : isTag ob = false)
    (hlbR : lb ≠ rb) (hobR : ob ≠ rb) (hobL : ob ≠ lb) (hcbL : cb ≠ lb) :
    ∀ (f : Nat) (l : List α), l.length ≤ f →
      noTags isTag lb rb (rtAux isTag lb rb ob cb f l) = true := by
  intro f
  induction f with
  | zero =>
    intro l hl
    have : l = [] := List.length_eq_zero.mp (Nat.le_zero.mp hl)
    subst this
    rfl
  | succ f ih =>
    intro l hl
    cases l with
    | nil => rfl
    | cons c rest =>
      simp only [rtAux, rtAuxG]
      by_cases hc : c = lb
      · simp only [hc, if_true]
        cases hsp : tagSplit isTag rb rest with
        | none =>
          dsimp only
          simp only [noTags, Bool.and_eq_true, Bool.or_eq_true]
          constructor
          · right
            have hr : rest.length ≤ f := by simpa using Nat.le_of_succ_le_succ hl
            have := tagSplit_none_rtAux isTag lb rb ob cb hlbT hobT hlbR hobR f rest hr hsp
            simp only [rtAux] at this
            simp [this]
          · have hr : rest.length ≤ f := by simpa using Nat.le_of_succ_le_succ hl
            have := ih rest hr
            simpa [rtAux] using this
        | some pr =>
          obtain ⟨tok, rest2⟩ := pr
          dsimp only
          obtain ⟨htokeq, htokne, heq⟩ := tagSplit_eq_some isTag rb rest tok rest2 hsp
          have hlen : rest2.length ≤ f := by
            have h2 := congrArg List.length heq
            simp only [List.length_append, List.length_cons] at h2
            have h3 : rest.length ≤ f := by simpa using Nat.le_of_succ_le_succ hl
            omega
          have hO := ih rest2 hlen
          have hshape : ob :: (tok ++ cb :: rtAuxG (tagSplit isTag rb) lb ob cb f rest2) =
              (ob :: (tok ++ [cb])) ++ rtAuxG (tagSplit isTag rb) lb ob cb f rest2 := by
            simp
          rw [hshape]
          apply noTags_append_of_ne
          · intro x hx
            rcases List.mem_cons.mp hx with h1 | h1
            · rw [h1]; exact hobL
            · rcases List.mem_append.mp h1 with h2 | h2
              · intro he
                rw [he] at h2
                have := List.mem_takeWhile_imp (htokeq ▸ h2)
                rw [hlbT] at this
                cases this
              · rw [List.mem_singleton.mp h2]
                exact hcbL
          · simpa [rtAux] using hO
      · simp only [hc, if_false]
        simp only [noTags, Bool.and_eq_true, Bool.or_eq_true]
        have hr : rest.length ≤ f := by simpa using Nat.le_of_succ_le_succ hl
        refine ⟨Or.inl (by simpa using hc), ?_⟩
        have := ih rest hr
        simpa [rtAux] using this

/-- Strings with no match anywhere are fixed points of the rewrite. -/
theorem rtAux_of_noTags (isTag : α → Bool) (lb rb ob cb : α) :
    ∀ (f : Nat) (l : List α), l.length ≤ f → noTags isTag lb rb l = true →
      rtAux isTag lb rb ob cb f l = l := by
  intro f
  induction f with
  | zero =>
    intro l hl _
    have : l = [] := List.length_eq_zero.mp (Nat.le_zero.mp hl)
    subst this
    rfl
  | succ f ih =>
    intro l hl hnt
    cases l with
    | nil => rfl
    | cons c rest =>
      simp only [noTags, Bool.and_eq_true, Bool.or_eq_true] at hnt
      obtain ⟨hnt1, hnt2⟩ := hnt
      have hr : rest.length ≤ f := by simpa using Nat.le_of_succ_le_succ hl
      have hrest := ih rest hr hnt2
      simp only [rtAux, rtAuxG]
      by_cases hc : c = lb
      · have hnone : tagSplit isTag rb rest = none := by
          rcases hnt1 with h1 | h1
          · exact absurd hc (by simpa using h1)
          · exact Option.isNone_iff_eq_none.mp h1
        have h2 : rtAuxG (tagSplit isTag rb) lb ob cb f rest = rest := by
          simpa [rtAux] using hrest
        rw [hnone]
        dsimp only
        rw [hc, h2]
        simp
      · have h2 : rtAuxG (tagSplit isTag rb) lb ob cb f rest = rest := by
          simpa [rtAux] using hrest
        simp only [hc, if_false]
        rw [h2]

end TagRewrite3

/-! ### The concrete color-tag rewrites of the source -/

/-- Character class of v0's `config.colorTagRegex`, `/\[([a-z0-9#]+)\]/g`. -/
def isTagChar (c : Char) : Bool :=
  ('a' ≤ c ∧ c ≤ 'z') ∨ ('0' ≤ c ∧ c ≤ '9') ∨ c = '#'

/-- v0's `processColorTags`: `text.replace(config.colorTagRegex, "{$1}")`. -/
def processColorTags (s : List Char) : List Char :=
  rtAux isTagChar '[' ']' '{' '}' s.length s

/-- No occurrence of the v0 color-tag pattern remains in `s`. -/
def noColorTag (s : List Char) : Bool := noTags isTagChar '[' ']' s

/-- Byte-level class of v0's color-tag regex (`a`-`z`, `0`-`9`, `#`). -/
def isTagByte (b : Nat) : Bool :=
  (97 ≤ b ∧ b ≤ 122) ∨ (48 ≤ b ∧ b ≤ 57) ∨ b = 35

/-- Byte-level v0 `processColorTags`, applied by `parseServerInfo` to the
decoded fields (`[` = 91, `]` = 93, `{` = 123, `}` = 125). -/
def pctBytes (s : List Nat) : List Nat :=
  rtAux isTagByte 91 93 123 125 s.length s

theorem processColorTags_clean (s : List Char) :
    noColorTag (processColorTags s) = true := by
  unfold noColorTag processColorTags
  exact noTags_rtAux isTagChar '[' ']' '{' '}' (by decide) (by decide) (by decide)
    (by decide) (by decide) (by decide) s.length s (Nat.le_refl _)

theorem processColorTags_idem (s : List Char) :
    processColorTags (processColorTags s) = processColorTags s := by
  conv_lhs => unfold processColorTags
  apply rtAux_of_noTags isTagChar '[' ']' '{' '}' _ _ (Nat.le_refl _)
  exact processColorTags_clean s

/-! ### Binary decoder of v0 (`parseServerInfo`, part_000 lines 184-243)

Offsets below are the source expressions simplified:
`nameLenth+1` for the map length; `nameLenth+1+mapLenth+1+12 = n+m+14` for the
"official" length; `nameLenth+1+mapLenth+1+12+officalLenth+1-1+6 = n+m+20+o`
for the (signed) description length; `nameLenth+2+mapLenth+1+2 = n+m+5` for
the player count; the description text starts at
`nameLenth+1+mapLenth+1+12+officalLenth+1-1+6+1 = n+m+21+o`.
`Buffer.readUInt8`/`readInt8` throw a `RangeError` when the offset is out of
bounds (modelled as `Except.error` carrying the offset and buffer length),
while `Buffer.toString(encoding, start, end)` silently clamps `start`/`end`
to the buffer and yields the empty string when `end ≤ start`.  The unused
`slice` intermediates of the source have no effect and are omitted. -/

deriving instance DecidableEq for Except

/-- Decoded server record; the string fields are UTF-8 byte sequences. -/
structure ServerRecord where
  name : List Nat
  description : List Nat
  players : Nat
  map : List Nat
deriving DecidableEq

/-- Out-of-bounds read error (Node `ERR_OUT_OF_RANGE`): offending offset and
buffer length. -/
structure DecodeErr where
  offset : Nat
  length : Nat
deriving DecidableEq

/-- Model of `buf.readUInt8(i)`: bounds-checked single-byte read. -/
def readUInt8 (buf : List Nat) (i : Nat) : Except DecodeErr Nat :=
  match buf[i]? with
  | some b => .ok b
  | none => .error ⟨i, buf.length⟩

/-- Model of `buf.readInt8(i)`: bounds-checked signed single-byte read. -/
def readInt8 (buf : List Nat) (i : Nat) : Except DecodeErr Int :=
  (readUInt8 buf i).map fun b => if 128 ≤ b then (b : Int) - 256 else (b : Int)

/-- End-offset clamping of `Buffer.toString`. -/
def clampEnd (len : Nat) (e : Int) : Int := if e > (len : Int) then (len : Int) else e

/-- Model of `buf.toString('utf-8', s, e)` (as a byte slice): negative starts
clamp to 0, a start past the end or an end not past the start give an empty
string, the end clamps to the length. -/
def bufToString (buf : List Nat) (s e : Int) : List Nat :=
  if (buf.length : Int) ≤ s then []
  else if clampEnd buf.length e ≤ (s.toNat : Int) then []
  else (buf.drop s.toNat).take ((clampEnd buf.length e).toNat - s.toNat)

/-- Model of `text.replace("[]", " ")`: only the first occurrence of the
two-byte sequence `[]` (91, 93) becomes one space (32). -/
def replaceFirstBB : List Nat → List Nat
  | [] => []
  | x :: rest =>
    if x = 91 ∧ rest.head? = some 93 then 32 :: rest.tail
    else x :: replaceFirstBB rest

/-- `l` contains an occurrence of the two-byte sequence `[]`. -/
def hasBB : List Nat → Bool
  | [] => false
  | x :: rest => (decide (x = 91) && decide (rest.head? = some 93)) || hasBB rest

/-- Bounds-defaulted byte access (agrees with `readUInt8` in bounds). -/
def byteAt (buf : List Nat) (i : Nat) : Nat := (buf[i]?).getD 0

/-- First length byte (`nameLenth`). -/
def nLen (buf : List Nat) : Nat := byteAt buf 0

/-- Second length byte (`mapLenth`, at offset `nameLenth + 1`). -/
def mLen (buf : List Nat) : Nat := byteAt buf (nLen buf + 1)

/-- Third length byte (`officalLenth`, at offset `n + m + 14`). -/
def oLen (buf : List Nat) : Nat := byteAt buf (nLen buf + mLen buf + 14)

/-- Signed description length byte (`descriptionLenth`, read with `readInt8`
at offset `n + m + 20 + o`). -/
def dLen (buf : List Nat) : Int :=
  if 128 ≤ byteAt buf (nLen buf + mLen buf + 20 + oLen buf) then
    (byteAt buf (nLen buf + mLen buf + 20 + oLen buf) : Int) - 256
  else (byteAt buf (nLen buf + mLen buf + 20 + oLen buf) : Int)

/-- v0's `parseServerInfo`: walk the length-prefixed record.  Any failing
byte read throws (propagates the error); otherwise all four fields are
produced, each post-processed by `replace("[]", " ")` and `processColorTags`. -/
def parseServerInfo (buf : List Nat) : Except DecodeErr ServerRecord := do
  let nameLenth ← readUInt8 buf 0
  let mapLenth ← readUInt8 buf (nameLenth + 1)
  let officalLenth ← readUInt8 buf (nameLenth + mapLenth + 14)
  let descriptionLenth ← readInt8 buf (nameLenth + mapLenth + 20 + officalLenth)
  let players ← readUInt8 buf (nameLenth + mapLenth + 5)
  .ok
    { name := pctBytes (replaceFirstBB (bufToString buf 1 ((nameLenth : Int) - 1)))
      description := pctBytes (replaceFirstBB (bufToString buf
        ((nameLenth + mapLenth + 21 + officalLenth : Nat) : Int)
        (((nameLenth + mapLenth + 21 + officalLenth : Nat) : Int) + descriptionLenth)))
      players := players
      map := pctBytes (replaceFirstBB (bufToString buf ((nameLenth : Int) + 2)
        ((nameLenth : Int) + 2 + (mapLenth : Int)))) }

/-- Minimal buffer length for `parseServerInfo` to succeed: one more than the
offset `n + m + 20 + o` of the last mandatory byte read.  This is also where
the description text starts. -/
def parseMinLen (buf : List Nat) : Nat := nLen buf + mLen buf + 21 + oLen buf

/-- Declared end offset of the description field: its start plus the signed
declared length; a declared end past the buffer is what the spec says must
be rejected. -/
def descDeclaredEnd (buf : List Nat) : Int := (parseMinLen buf : Int) + dLen buf

/-! ### v1 decoding (`parseHexPayload`, part_001 lines 171-184) -/

/-- Value of a pair of hexadecimal digits as one byte. -/
def hexPairVal (h l : Char) : Nat := 16 * hexDigitVal h + hexDigitVal l

/-- Model of `Buffer.from(hexString, 'hex')`: consecutive digit pairs; a
trailing unpaired digit is dropped. -/
def hexToBytes : List Char → List Nat
  | h :: l :: rest => hexPairVal h l :: hexToBytes rest
  | _ => []

/-- Byte is in the control ranges stripped by v1, `[\x00-\x1F\x7F-\x9F]`. -/
def isCtlByte (b : Nat) : Bool := b ≤ 31 ∨ (127 ≤ b ∧ b ≤ 159)

/-- Fuel-driven collapse of space runs (`replace(/\s+/g, ' ')` after control
characters have been stripped; 32 is the only whitespace byte left). -/
def collapseSpacesA : Nat → List Nat → List Nat
  | 0, l => l
  | _ + 1, [] => []
  | f + 1, b :: rest =>
    if b = 32 then 32 :: collapseSpacesA f (rest.dropWhile fun x => decide (x = 32))
    else b :: collapseSpacesA f rest

/-- Collapse runs of spaces to a single space. -/
def collapseSpaces (l : List Nat) : List Nat := collapseSpacesA l.length l

/-- Model of `String.prototype.trim` on the cleaned byte string. -/
def trimSpaces (l : List Nat) : List Nat :=
  ((l.dropWhile fun b => decide (b = 32)).reverse.dropWhile fun b => decide (b = 32)).reverse

/-- Error message thrown by `parseHexPayload` on non-hex input. -/
def hexErrMsg : List Char := ("HEX解析失败: 包含非16进制字符").toList

/-- v1's `parseHexPayload`: validate `/^[0-9a-fA-F]+$/`, decode the hex, strip
control characters, collapse whitespace, trim.  The only failure is non-hex
(or empty) input. -/
def parseHexPayload (hexString : List Char) : Except (List Char) (List Nat) :=
  if hexString ≠ [] ∧ hexString.all isHexChar then
    .ok (trimSpaces (collapseSpaces ((hexToBytes hexString).filter fun b => !isCtlByte b)))
  else .error hexErrMsg

/-- Word-class of v1's color-tag regex `/\[#?(\w+)\]/g` (`\w`). -/
def isWordByte (b : Nat) : Bool :=
  (48 ≤ b ∧ b ≤ 57) ∨ (65 ≤ b ∧ b ≤ 90) ∨ (97 ≤ b ∧ b ≤ 122) ∨ b = 95

/-- Head match of v1's regex after the opening bracket: an optional `#`
(number sign, 35) is consumed but not captured; then a nonempty word run and
the closing bracket.  When the `#` is present but no word follows, the
backtracking attempt without the `#` also fails because `#` is not a word
character. -/
def tagSplitV1 (l : List Nat) : Option (List Nat × List Nat) :=
  match l with
  | 35 :: r => tagSplit isWordByte 93 r
  | _ => tagSplit isWordByte 93 l

/-- v1's `processColorTags` at byte level (`[` 91 → `{` 123, `]` 93 → `}`
125, `#` dropped). -/
def pctBytesV1 (s : List Nat) : List Nat := rtAuxG tagSplitV1 91 123 125 s.length s

/-! ### Stable sorting by timestamp

Both variants select the authoritative reply with `Array.prototype.sort` and
an index access: v0 sorts descending (`(a, b) => b.timestamp - a.timestamp`)
and takes index `0`; v1 sorts ascending (`(a, b) => a.timestamp - b.timestamp`)
and takes the last element.  JS sort is stable, and a stable sort result is
unique for a consistent comparator, so a stable insertion sort is a faithful
model: each element is inserted after all existing elements it ties with. -/

section StableSort

variable {β : Type} (ts : β → Nat)

/-- Stable insert for the descending comparator: the new (later) element goes
after every element with a greater-or-equal timestamp. -/
def insDesc (x : β) : List β → List β
  | [] => [x]
  | y :: ys => if ts y < ts x then x :: y :: ys else y :: insDesc x ys

/-- Stable descending sort by timestamp. -/
def sortDescTs (l : List β) : List β := l.foldl (fun acc x => insDesc ts x acc) []

/-- Stable insert for the ascending comparator. -/
def insAsc (x : β) : List β → List β
  | [] => [x]
  | y :: ys => if ts x < ts y then x :: y :: ys else y :: insAsc x ys

/-- Stable ascending sort by timestamp. -/
def sortAscTs (l : List β) : List β := l.foldl (fun acc x => insAsc ts x acc) []

/-- The element with the greatest timestamp, earliest-appended winning ties. -/
def latestKeepFirst (l : List β) : Option β :=
  l.foldl (fun m x =>
    match m with
    | none => some x
    | some y => if ts y < ts x then some x else some y) none

/-- The element with the greatest timestamp, latest-appended winning ties. -/
def latestKeepLast (l : List β) : Option β :=
  l.foldl (fun m x =>
    match m with
    | none => some x
    | some y => if ts x < ts y then some y else some x) none

theorem head?_insDesc (x : β) (s : List β) :
    (insDesc ts x s).head? =
      (match s.head? with
       | none => some x
       | some y => if ts y < ts x then some x else some y) := by
  cases s with
  | nil => rfl
  | cons y ys =>
    simp only [insDesc, List.head?]
    by_cases h : ts y < ts x <;> simp [h]

theorem head?_foldl_insDesc (l : List β) :
    ∀ acc : List β,
      (l.foldl (fun a x => insDesc ts x a) acc).head? =
        l.foldl (fun m x =>
          match m with
          | none => some x
          | some y => if ts y < ts x then some x else some y) acc.head? := by
  induction l with
  | nil => intro acc; rfl
  | cons x l ih =>
    intro acc
    simp only [List.foldl_cons]
    rw [ih (insDesc ts x acc), head?_insDesc]

/-- The head of the descending stable sort is the first-appended element with
the maximal timestamp. -/
theorem sortDescTs_head (l : List β) :
    (sortDescTs ts l).head? = latestKeepFirst ts l := by
  unfold sortDescTs latestKeepFirst
  exact head?_foldl_insDesc ts l []

theorem latestKeepFirst_eq_none (l : List β) (h : latestKeepFirst ts l = none) :
    l = [] := by
  induction l using List.reverseRecOn with
  | nil => rfl
  | append_singleton l x ih =>
    unfold latestKeepFirst at h
    rw [List.foldl_append] at h
    simp only [List.foldl_cons, List.foldl_nil] at h
    cases hm : List.foldl (fun m x =>
        match m with
        | none => some x
        | some y => if ts y < ts x then some x else some y) none l with
    | none => rw [hm] at h; cases h
    | some y =>
      rw [hm] at h
      by_cases hc : ts y < ts x <;> simp [hc] at h

/-- Characterization of `latestKeepFirst`: the chosen element has the maximal
timestamp, everything appended before it is strictly older, everything
appended after it is not newer. -/
theorem latestKeepFirst_spec (l : List β) :
    ∀ r : β, latestKeepFirst ts l = some r →
      ∃ u v, l = u ++ r :: v ∧ (∀ a ∈ u, ts a < ts r) ∧ (∀ b ∈ v, ts b ≤ ts r) := by
  induction l using List.reverseRecOn with
  | nil => intro r h; cases h
  | append_singleton l x ih =>
    intro r h
    have hstep : latestKeepFirst ts (l ++ [x]) =
        (match latestKeepFirst ts l with
         | none => some x
         | some y => if ts y < ts x then some x else some y) := by
      unfold latestKeepFirst
      rw [List.foldl_append]
      simp
    rw [hstep] at h
    cases hm : latestKeepFirst ts l with
    | none =>
      rw [hm] at h
      have hl : l = [] := latestKeepFirst_eq_none ts l hm
      subst hl
      have h2 : (some x : Option β) = some r := h
      have h3 : x = r := by injection h2
      subst h3
      exact ⟨[], [], rfl, by simp, by simp⟩
    | some y =>
      rw [hm] at h
      have h2 : (if ts y < ts x then some x else some y) = some r := h
      obtain ⟨u, v, hl, hu, hv⟩ := ih y hm
      by_cases hc : ts y < ts x
      · simp only [hc, if_true, Option.some.injEq] at h2
        subst h2
        refine ⟨l, [], rfl, ?_, by simp⟩
        intro a ha
        rw [hl] at ha
        rcases List.mem_append.mp ha with h1 | h1
        · have := hu a h1
          omega
        · rcases List.mem_cons.mp h1 with h3 | h3
          · rw [h3]; exact hc
          · have := hv a h3
            omega
      · simp only [hc, if_false, Option.some.injEq] at h2
        subst h2
        refine ⟨u, v ++ [x], by rw [hl]; simp, hu, ?_⟩
        intro b hb
        rcases List.mem_append.mp hb with h1 | h1
        · exact hv b h1
        · rw [List.mem_singleton.mp h1]
          omega

theorem latestKeepLast_eq_none (l : List β) (h : latestKeepLast ts l = none) :
    l = [] := by
  induction l using List.reverseRecOn with
  | nil => rfl
  | append_singleton l x ih =>
    unfold latestKeepLast at h
    rw [List.foldl_append] at h
    simp only [List.foldl_cons, List.foldl_nil] at h
    cases hm : List.foldl (fun m x =>
        match m with
        | none => some x
        | some y => if ts x < ts y then some y else some x) none l with
    | none => rw [hm] at h; cases h
    | some y =>
      rw [hm] at h
      by_cases hc : ts x < ts y <;> simp [hc] at h

/-- Characterization of `latestKeepLast`: maximal timestamp, later-appended
winning ties. -/
theorem latestKeepLast_spec (l : List β) :
    ∀ r : β, latestKeepLast ts l = some r →
      ∃ u v, l = u ++ r :: v ∧ (∀ a ∈ u, ts a ≤ ts r) ∧ (∀ b ∈ v, ts b < ts r) := by
  induction l using List.reverseRecOn with
  | nil => intro r h; cases h
  | append_singleton l x ih =>
    intro r h
    have hstep : latestKeepLast ts (l ++ [x]) =
        (match latestKeepLast ts l with
         | none => some x
         | some y => if ts x < ts y then some y else some x) := by
      unfold latestKeepLast
      rw [List.foldl_append]
      simp
    rw [hstep] at h
    cases hm : latestKeepLast ts l with
    | none =>
      rw [hm] at h
      have hl : l = [] := latestKeepLast_eq_none ts l hm
      subst hl
      have h2 : (some x : Option β) = some r := h
      have h3 : x = r := by injection h2
      subst h3
      exact ⟨[], [], rfl, by simp, by simp⟩
    | some y =>
      rw [hm] at h
      have h2 : (if ts x < ts y then some y else some x) = some r := h
      obtain ⟨u, v, hl, hu, hv⟩ := ih y hm
      by_cases hc : ts x < ts y
      · simp only [hc, if_true, Option.some.injEq] at h2
        subst h2
        refine ⟨u, v ++ [x], by rw [hl]; simp, hu, ?_⟩
        intro b hb
        rcases List.mem_append.mp hb with h1 | h1
        · exact hv b h1
        · rw [List.mem_singleton.mp h1]; exact hc
      · simp only [hc, if_false, Option.some.injEq] at h2
        subst h2
        refine ⟨l, [], rfl, ?_, by simp⟩
        intro a ha
        rw [hl] at ha
        rcases List.mem_append.mp ha with h1 | h1
        · have := hu a h1
          omega
        · rcases List.mem_cons.mp h1 with h3 | h3
          · rw [h3]; omega
          · have := hv a h3
            omega

end StableSort

section StableSortAsc

variable {β : Type} (ts : β → Nat)

theorem getLastQ_mem (l : List β) (z : β) (h : l.getLast? = some z) : z ∈ l := by
  obtain ⟨hne, hz⟩ := List.mem_getLast?_eq_getLast (l := l) (x := z) (by rw [h]; rfl)
  rw [hz]
  exact List.getLast_mem hne

theorem mem_insAsc (x z : β) (s : List β) (h : z ∈ insAsc ts x s) : z = x ∨ z ∈ s := by
  induction s with
  | nil => simpa [insAsc] using h
  | cons y ys ih =>
    simp only [insAsc] at h
    by_cases hc : ts x < ts y
    · simp only [hc, if_true] at h
      rcases List.mem_cons.mp h with h1 | h1
      · exact Or.inl h1
      · exact Or.inr h1
    · simp only [hc, if_false] at h
      rcases List.mem_cons.mp h with h1 | h1
      · exact Or.inr (h1 ▸ List.mem_cons_self _ _)
      · rcases ih h1 with h2 | h2
        · exact Or.inl h2
        · exact Or.inr (List.mem_cons_of_mem _ h2)

theorem insAsc_ne_nil (x : β) (s : List β) : insAsc ts x s ≠ [] := by
  cases s with
  | nil => simp [insAsc]
  | cons y ys =>
    simp only [insAsc]
    by_cases hc : ts x < ts y <;> simp [hc]

theorem pairwise_insAsc (x : β) (s : List β)
    (hs : s.Pairwise (fun a b => ts a ≤ ts b)) :
    (insAsc ts x s).Pairwise (fun a b => ts a ≤ ts b) := by
  induction s with
  | nil => simp [insAsc]
  | cons y ys ih =>
    rw [List.pairwise_cons] at hs
    obtain ⟨hy, hys⟩ := hs
    simp only [insAsc]
    by_cases hc : ts x < ts y
    · simp only [hc, if_true]
      rw [List.pairwise_cons]
      constructor
      · intro z hz
        rcases List.mem_cons.mp hz with h1 | h1
        · rw [h1]; omega
        · have := hy z h1
          omega
      · rw [List.pairwise_cons]
        exact ⟨hy, hys⟩
    · simp only [hc, if_false]
      rw [List.pairwise_cons]
      constructor
      · intro z hz
        rcases mem_insAsc ts x z ys hz with h1 | h1
        · rw [h1]; omega
        · exact hy z h1
      · exact ih hys

theorem pairwise_foldl_insAsc (l : List β) :
    ∀ acc : List β, acc.Pairwise (fun a b => ts a ≤ ts b) →
      (l.foldl (fun a x => insAsc ts x a) acc).Pairwise (fun a b => ts a ≤ ts b) := by
  induction l with
  | nil => intro acc h; exact h
  | cons x l ih =>
    intro acc h
    simp only [List.foldl_cons]
    exact ih (insAsc ts x acc) (pairwise_insAsc ts x acc h)

theorem getLast?_insAsc (x : β) (s : List β)
    (hs : s.Pairwise (fun a b => ts a ≤ ts b)) :
    (insAsc ts x s).getLast? =
      (match s.getLast? with
       | none => some x
       | some y => if ts x < ts y then some y else some x) := by
  induction s with
  | nil => rfl
  | cons y ys ih =>
    rw [List.pairwise_cons] at hs
    obtain ⟨hy, hys⟩ := hs
    simp only [insAsc]
    by_cases hc : ts x < ts y
    · simp only [hc, if_true]
      cases hz : (y :: ys).getLast? with
      | none => simp at hz
      | some z =>
        have hmem : z ∈ y :: ys := getLastQ_mem (y :: ys) z hz
        have hyz : ts y ≤ ts z := by
          rcases List.mem_cons.mp hmem with h1 | h1
          · rw [h1]
          · exact hy z h1
        have hxz : ts x < ts z := by omega
        rw [List.getLast?_cons_cons, hz]
        simp [hxz]
    · simp only [hc, if_false]
      cases ys with
      | nil =>
        simp only [insAsc]
        simp [hc]
      | cons w ws =>
        have hne := insAsc_ne_nil ts x (w :: ws)
        cases hi : insAsc ts x (w :: ws) with
        | nil => exact absurd hi hne
        | cons a as =>
          rw [List.getLast?_cons_cons, ← hi, ih hys, List.getLast?_cons_cons]

theorem getLast?_foldl_insAsc (l : List β) :
    ∀ acc : List β, acc.Pairwise (fun a b => ts a ≤ ts b) →
      (l.foldl (fun a x => insAsc ts x a) acc).getLast? =
        l.foldl (fun m x =>
          match m with
          | none => some x
          | some y => if ts x < ts y then some y else some x) acc.getLast? := by
  induction l with
  | nil => intro acc _; rfl
  | cons x l ih =>
    intro acc hacc
    simp only [List.foldl_cons]
    rw [ih (insAsc ts x acc) (pairwise_insAsc ts x acc hacc), getLast?_insAsc ts x acc hacc]

/-- The last element of the ascending stable sort is the latest-appended
element with the maximal timestamp. -/
theorem sortAscTs_getLast (l : List β) :
    (sortAscTs ts l).getLast? = latestKeepLast ts l := by
  unfold sortAscTs latestKeepLast
  exact getLast?_foldl_insAsc ts l [] (by simp)

theorem length_insAsc (x : β) (s : List β) :
    (insAsc ts x s).length = s.length + 1 := by
  induction s with
  | nil => rfl
  | cons y ys ih =>
    simp only [insAsc]
    by_cases hc : ts x < ts y
    · simp [hc]
    · simp only [hc, if_false, List.length_cons, ih]

theorem length_sortAscTs (l : List β) : (sortAscTs ts l).length = l.length := by
  unfold sortAscTs
  have haux : ∀ acc : List β,
      (l.foldl (fun a x => insAsc ts x a) acc).length = acc.length + l.length := by
    induction l with
    | nil => intro acc; simp
    | cons x l ih =>
      intro acc
      simp only [List.foldl_cons]
      rw [ih (insAsc ts x acc), length_insAsc]
      simp only [List.length_cons]
      omega
  have := haux []
  simpa using this

end StableSortAsc

/-! ### Target set and probe engine -/

/-- A target loaded from the server list: both variants build
`{host/ip, port: parseInt(...), name: group.name}`. -/
structure Target where
  host : List Char
  port : Option Int
  label : List Char
deriving DecidableEq

/-- One address entry turned into a target (`loadServers`, identical logic in
both variants): an address containing `':'` is split on `':'` and destructured
into its first two segments, the port segment going through `parseInt`;
otherwise the configured default port 6567 is used. -/
def parseAddr (label addr : List Char) : Target :=
  if ':' ∈ addr then
    { host := (splitChar ':' addr).headI
      port := jsParseInt ((splitChar ':' addr).getD 1 [])
      label := label }
  else { host := addr, port := some 6567, label := label }

/-- `loadServers`: flatten the groups, one target per address, in order. -/
def loadServers (groups : List (List Char × List (List Char))) : List Target :=
  groups.foldl (fun acc g => acc ++ g.2.map (parseAddr g.1)) []

/-- The declared key of a target, `` `${host}:${port}` ``. -/
def keyOf (t : Target) : List Char := t.host ++ ':' :: numChars t.port

/-- An inbound datagram event (`socket.on('message', (msg, rinfo) => ...)`):
the payload bytes plus `rinfo.address`/`rinfo.port` and the arrival time. -/
structure UdpEvent where
  sourceAddress : List Char
  sourcePort : Nat
  payload : List Nat
  time : Nat
deriving DecidableEq

/-- The raw reply key `` `${rinfo.address}:${rinfo.port}` ``. -/
def rawKey (ev : UdpEvent) : List Char :=
  ev.sourceAddress ++ ':' :: natChars ev.sourcePort

/-- v0's correlation (part_000 line 156): the first declared key whose text
ends in `":" + rinfo.port`, the raw source key otherwise. -/
def matchedKeyV0 (keys : List (List Char)) (ev : UdpEvent) : List Char :=
  match keys.find? (fun k => jsEndsWith k (':' :: natChars ev.sourcePort)) with
  | some k => k
  | none => rawKey ev

/-- A stored v0 reply `{timestamp, response}`; the payload is kept as bytes
(the source stores the equivalent hex string). -/
structure V0Reply where
  timestamp : Nat
  response : List Nat
deriving DecidableEq

def mkReplyV0 (ev : UdpEvent) : V0Reply := ⟨ev.time, ev.payload⟩

/-- Hex digit character (lowercase), as produced by `msg.toString('hex')`. -/
def hexChar (d : Nat) : Char :=
  match d with
  | 0 => '0' | 1 => '1' | 2 => '2' | 3 => '3' | 4 => '4' | 5 => '5' | 6 => '6'
  | 7 => '7' | 8 => '8' | 9 => '9' | 10 => 'a' | 11 => 'b' | 12 => 'c'
  | 13 => 'd' | 14 => 'e' | _ => 'f'

/-- Hex encoding of a byte string (`msg.toString('hex')`). -/
def bytesToHex : List Nat → List Char
  | [] => []
  | b :: rest => hexChar (b / 16 % 16) :: hexChar (b % 16) :: bytesToHex rest

/-- A stored v1 reply `{timestamp, response}` with the hex string payload. -/
structure V1Reply where
  timestamp : Nat
  response : List Char
deriving DecidableEq

def mkReplyV1 (ev : UdpEvent) : V1Reply := ⟨ev.time, bytesToHex ev.payload⟩

/-- Append a value to the list stored under `k`, creating the entry at the end
when absent — exactly `if (!responses[key]) responses[key] = [];
responses[key].push(...)` on an insertion-ordered JS object. -/
def pushEntry {κ ν : Type} [DecidableEq κ] (m : List (κ × List ν)) (k : κ) (v : ν) :
    List (κ × List ν) :=
  match m with
  | [] => [(k, [v])]
  | (k2, l) :: rest => if k2 = k then (k2, l ++ [v]) :: rest else (k2, l) :: pushEntry rest k v

/-- Lookup in an insertion-ordered association list. -/
def lookupKey {κ ν : Type} [DecidableEq κ] (m : List (κ × ν)) (k : κ) : Option ν :=
  match m with
  | [] => none
  | (k2, v) :: rest => if k2 = k then some v else lookupKey rest k

/-- The receive loop: fold the datagram events into the ReplySet, pushing
each reply under its correlation key. -/
def collectBy {κ ν ε : Type} [DecidableEq κ] (keyF : ε → κ) (valF : ε → ν)
    (acc : List (κ × List ν)) (evs : List ε) : List (κ × List ν) :=
  evs.foldl (fun a e => pushEntry a (keyF e) (valF e)) acc

/-- v0's ReplySet builder, parameterized by the correlation policy. -/
def collectReplies (keyFn : UdpEvent → List Char) (evs : List UdpEvent) :
    List (List Char × List V0Reply) :=
  collectBy keyFn mkReplyV0 [] evs

/-- v1's ReplySet builder: always the raw source key (part_001 line 96). -/
def collectRepliesV1 (evs : List UdpEvent) : List (List Char × List V1Reply) :=
  collectBy rawKey mkReplyV1 [] evs

section CollectLemmas

variable {κ ν ε : Type} [DecidableEq κ]

theorem lookupKey_pushEntry_self (m : List (κ × List ν)) (k : κ) (v : ν) :
    lookupKey (pushEntry m k v) k = some ((lookupKey m k).getD [] ++ [v]) := by
  induction m with
  | nil => simp [pushEntry, lookupKey]
  | cons p rest ih =>
    obtain ⟨k2, l⟩ := p
    simp only [pushEntry]
    by_cases h : k2 = k
    · simp [h, lookupKey]
    · simp only [h, if_false, lookupKey, ih]

theorem lookupKey_pushEntry_ne (m : List (κ × List ν)) (k k2 : κ) (v : ν)
    (h : k2 ≠ k) : lookupKey (pushEntry m k2 v) k = lookupKey m k := by
  induction m with
  | nil => simp [pushEntry, lookupKey, h]
  | cons p rest ih =>
    obtain ⟨k3, l⟩ := p
    simp only [pushEntry]
    by_cases h3 : k3 = k2
    · subst h3
      simp [lookupKey, h]
    · simp only [h3, if_false, lookupKey, ih]

theorem lookupKey_mem (m : List (κ × ν)) (k : κ) (v : ν)
    (h : lookupKey m k = some v) : (k, v) ∈ m := by
  induction m with
  | nil => cases h
  | cons p rest ih =>
    obtain ⟨k2, w⟩ := p
    simp only [lookupKey] at h
    by_cases h2 : k2 = k
    · subst h2
      rw [if_pos rfl] at h
      simp only [Option.some.injEq] at h
      subst h
      exact List.mem_cons_self _ _
    · rw [if_neg h2] at h
      exact List.mem_cons_of_mem _ (ih h)

theorem mem_pushEntry (m : List (κ × List ν)) (k : κ) (v : ν) (p : κ × List ν)
    (h : p ∈ pushEntry m k v) : p.2 ≠ [] ∨ p ∈ m := by
  induction m with
  | nil =>
    simp only [pushEntry, List.mem_singleton] at h
    left
    rw [h]
    simp
  | cons q rest ih =>
    obtain ⟨k2, l⟩ := q
    simp only [pushEntry] at h
    by_cases h2 : k2 = k
    · rw [if_pos h2] at h
      rcases List.mem_cons.mp h with h3 | h3
      · left
        rw [h3]
        simp
      · right
        exact List.mem_cons_of_mem _ h3
    · rw [if_neg h2] at h
      rcases List.mem_cons.mp h with h3 | h3
      · right
        exact h3 ▸ List.mem_cons_self _ _
      · rcases ih h3 with h4 | h4
        · exact Or.inl h4
        · exact Or.inr (List.mem_cons_of_mem _ h4)

theorem collectBy_values_ne_nil (keyF : ε → κ) (valF : ε → ν) (evs : List ε) :
    ∀ acc : List (κ × List ν), (∀ p ∈ acc, p.2 ≠ []) →
      ∀ p ∈ collectBy keyF valF acc evs, p.2 ≠ [] := by
  induction evs with
  | nil => intro acc h p hp; exact h p hp
  | cons e evs ih =>
    intro acc h p hp
    simp only [collectBy, List.foldl_cons] at hp
    refine ih (pushEntry acc (keyF e) (valF e)) ?_ p hp
    intro q hq
    rcases mem_pushEntry acc (keyF e) (valF e) q hq with h1 | h1
    · exact h1
    · exact h q h1

/-- Value of a key after the whole collection: the old value extended by the
replies of all events attributed to `k`, in arrival order. -/
theorem lookupKey_collectBy (keyF : ε → κ) (valF : ε → ν) (evs : List ε) :
    ∀ (acc : List (κ × List ν)) (k : κ),
      (lookupKey (collectBy keyF valF acc evs) k).getD [] =
        (lookupKey acc k).getD [] ++ (evs.filter fun e => decide (keyF e = k)).map valF := by
  induction evs with
  | nil => intro acc k; simp [collectBy]
  | cons e evs ih =>
    intro acc k
    simp only [collectBy, List.foldl_cons, List.filter_cons]
    have h2 := ih (pushEntry acc (keyF e) (valF e)) k
    simp only [collectBy] at h2
    by_cases h : keyF e = k
    · rw [h2, h, lookupKey_pushEntry_self]
      simp [h]
    · rw [h2, lookupKey_pushEntry_ne acc k (keyF e) (valF e) h]
      simp [h]

end CollectLemmas

/-! ### Aggregators (`processEnhancedData`, both variants) -/

/-- UTF-8 encoding of one character (pure arithmetic, kernel-evaluable). -/
def utf8Char (c : Char) : List Nat :=
  if c.toNat < 128 then [c.toNat]
  else if c.toNat < 2048 then [192 + c.toNat / 64, 128 + c.toNat % 64]
  else if c.toNat < 65536 then
    [224 + c.toNat / 4096, 128 + c.toNat / 64 % 64, 128 + c.toNat % 64]
  else
    [240 + c.toNat / 262144, 128 + c.toNat / 4096 % 64, 128 + c.toNat / 64 % 64,
      128 + c.toNat % 64]

/-- UTF-8 encoding of a character string as a byte string. -/
def utf8OfChars (l : List Char) : List Nat := l.foldr (fun c acc => utf8Char c ++ acc) []

/-- UTF-8 bytes of a string literal. -/
def utf8Bytes (s : String) : List Nat := utf8OfChars s.toList

/-- v0's display address: `` port && parseInt(port) !== defaultPort ?
`${host}:${port}` : host `` over `address.split(':')`. -/
def displayAddress (address : List Char) : List Char :=
  match splitChar ':' address with
  | [] => address
  | [h] => h
  | h :: p :: _ => if p = [] then h else if jsParseInt p = some 6567 then h else h ++ ':' :: p

/-- First split segment, the host v0 hands to the ping probe. -/
def hostOf (address : List Char) : List Char := (splitChar ':' address).headI

/-- v0's failure Report entry (part_000 lines 284-294): fixed placeholder
strings, zero counters, the current time. -/
structure V0Entry where
  ip : List Char
  name : List Nat
  players : Option Nat
  map : List Nat
  description : List Nat
  ping : List Char
  updatedAt : List Char
  sentPackets : Nat
  receivedMeta : Nat
deriving DecidableEq

/-- The v0 catch-branch entry: placeholder text (`players` is the string
`未知` there, modelled as `none`), `sentPackets` and `receivedMeta` both 0. -/
def v0FailEntry (now : List Char) (address : List Char) : V0Entry :=
  { ip := address
    name := utf8Bytes "数据解析失败"
    players := none
    map := utf8Bytes "未知地图"
    description := utf8Bytes "解析失败"
    ping := ("未知").toList
    updatedAt := now
    sentPackets := 0
    receivedMeta := 0 }

/-- One v0 aggregation step for a key: sort descending by timestamp, take
index 0 as the authoritative reply, decode it; any throw (empty list or a
failed byte read) lands in the catch branch.  `receivedMeta` is
`latest.response.length / 2` in the source, i.e. the byte length here;
`pingOf`, `fmt` and `now` model the external ping probe and time formatting. -/
def v0Entry (pingOf : List Char → List Char) (fmt : Nat → List Char) (now : List Char)
    (address : List Char) (responses : List V0Reply) : V0Entry :=
  match (sortDescTs (fun r => r.timestamp) responses).head? with
  | none => v0FailEntry now address
  | some latest =>
    match parseServerInfo latest.response with
    | .error _ => v0FailEntry now address
    | .ok rec0 =>
      { ip := displayAddress address
        name := rec0.name
        players := some rec0.players
        map := rec0.map
        description := rec0.description
        ping := pingOf (hostOf address)
        updatedAt := fmt latest.timestamp
        sentPackets := responses.length
        receivedMeta := latest.response.length }

/-- v0's `processEnhancedData`: one entry per ReplySet key, in key order. -/
def processEnhancedData (pingOf : List Char → List Char) (fmt : Nat → List Char)
    (now : List Char) (inputData : List (List Char × List V0Reply)) : List V0Entry :=
  inputData.map fun p => v0Entry pingOf fmt now p.1 p.2

/-- Byte-level split on one byte (used for v1's `split('|')`). -/
def splitByte (sep : Nat) : List Nat → List (List Nat)
  | [] => [[]]
  | b :: rest =>
      if b = sep then [] :: splitByte sep rest
      else
        match splitByte sep rest with
        | s :: ss => (b :: s) :: ss
        | [] => [[b]]

/-- v1's name/description extraction from the cleaned payload: split on `|`
(124), default the empty name before trimming, rejoin the remaining segments
with `|`, pass both through v1's color-tag rewrite. -/
def v1Fields (payload : List Nat) : List Nat × List Nat :=
  match splitByte 124 payload with
  | [] => ([], [])
  | namePart :: descParts =>
    (pctBytesV1 (trimSpaces (if namePart = [] then utf8Bytes "未知服务器" else namePart)),
     pctBytesV1 (trimSpaces (List.intercalate [124] descParts)))

/-- v1's per-key Report key: `` showPort ? address : domain `` where
`showPort = port && parseInt(port) !== defaultPort` over `address.split(':')`. -/
def outKeyV1 (address : List Char) : List Char :=
  match splitChar ':' address with
  | [] => address
  | [d] => d
  | d :: p :: _ => if p = [] then d else if jsParseInt p = some 6567 then d else address

/-- A v1 Report entry (part_001 lines 150-164). -/
structure V1Entry where
  name : List Nat
  description : List Nat
  last_updated : List Char
  raw_hex : List Char
  all_responses : List V1Reply
deriving DecidableEq

/-- One v1 aggregation step for a key: sort ascending by timestamp, take the
last element as the final reply, decode its hex payload; on failure build the
failed entry under the raw address key.  An empty reply list would make even
the catch block fault on `serverData.response`; it cannot occur for ReplySets
built by the probe engine (their values are nonempty), and the model maps it
to a failed entry. -/
def v1Step (fmt : Nat → List Char) (now : List Char) (address : List Char)
    (arr : List V1Reply) : List Char × V1Entry :=
  match (sortAscTs (fun r => r.timestamp) arr).getLast? with
  | none =>
      (address,
       { name := utf8Bytes "数据解析失败", description := [], last_updated := now,
         raw_hex := [], all_responses := [] })
  | some final =>
    match parseHexPayload final.response with
    | .ok payload =>
        (outKeyV1 address,
         { name := (v1Fields payload).1
           description :=
             if (v1Fields payload).2 = [] then utf8Bytes "暂无描述" else (v1Fields payload).2
           last_updated := fmt final.timestamp
           raw_hex := final.response
           all_responses := sortAscTs (fun r => r.timestamp) arr })
    | .error msg =>
        (address,
         { name := utf8Bytes "数据解析失败"
           description := utf8OfChars (("错误详情: ").toList ++ msg)
           last_updated := now
           raw_hex := final.response
           all_responses := sortAscTs (fun r => r.timestamp) arr })

/-- JS object property assignment: overwrite in place, else append. -/
def jsSet {κ ν : Type} [DecidableEq κ] (m : List (κ × ν)) (k : κ) (v : ν) : List (κ × ν) :=
  match m with
  | [] => [(k, v)]
  | (k2, w) :: rest => if k2 = k then (k2, v) :: rest else (k2, w) :: jsSet rest k v

/-- v1's `processEnhancedData`: group (already grouped here), pick the final
reply per key, build the `results` object in key order. -/
def processEnhancedDataV1 (fmt : Nat → List Char) (now : List Char)
    (inputData : List (List Char × List V1Reply)) : List (List Char × V1Entry) :=
  inputData.foldl (fun res p => jsSet res (v1Step fmt now p.1 p.2).1 (v1Step fmt now p.1 p.2).2) []

/-- v1 `main` step 4 (part_001 lines 326-334): targets whose declared key got
no entry in the ReplySet. -/
def noResponseServers (servers : List Target) (responseKeys : List (List Char)) : List Target :=
  servers.filter fun s => decide (keyOf s ∉ responseKeys)

/-! ### Decoder characterization -/

theorem readUInt8_ok (buf : List Nat) (i : Nat) (h : i < buf.length) :
    readUInt8 buf i = .ok (byteAt buf i) := by
  unfold readUInt8 byteAt
  cases hq : buf[i]? with
  | none => exact absurd (List.getElem?_eq_none_iff.mp hq) (by omega)
  | some b => simp [hq]

/-- Success form of `parseServerInfo`: when the buffer covers every mandatory
byte read, the decode succeeds and every field is the clamped slice of the
source offsets, post-processed by the bracket-pair replacement and the
color-tag rewrite. -/
theorem parseServerInfo_ok_of_le (buf : List Nat) (h : parseMinLen buf ≤ buf.length) :
    parseServerInfo buf = .ok
      { name := pctBytes (replaceFirstBB (bufToString buf 1 ((nLen buf : Int) - 1)))
        description := pctBytes (replaceFirstBB (bufToString buf (parseMinLen buf : Int)
          ((parseMinLen buf : Int) + dLen buf)))
        players := byteAt buf (nLen buf + mLen buf + 5)
        map := pctBytes (replaceFirstBB (bufToString buf ((nLen buf : Int) + 2)
          ((nLen buf : Int) + 2 + (mLen buf : Int)))) } := by
  have hmin : nLen buf + mLen buf + 21 + oLen buf ≤ buf.length := h
  unfold parseServerInfo readInt8
  rw [readUInt8_ok buf 0 (by omega)]
  simp only [Bind.bind, Except.bind]
  rw [readUInt8_ok buf (byteAt buf 0 + 1) (by simp only [nLen, mLen] at hmin; omega)]
  simp only [Except.bind]
  rw [readUInt8_ok buf (byteAt buf 0 + byteAt buf (byteAt buf 0 + 1) + 14)
    (by simp only [nLen, mLen, oLen] at hmin; omega)]
  simp only [Except.bind]
  rw [readUInt8_ok buf (byteAt buf 0 + byteAt buf (byteAt buf 0 + 1) + 20 +
      byteAt buf (byteAt buf 0 + byteAt buf (byteAt buf 0 + 1) + 14))
    (by simp only [nLen, mLen, oLen] at hmin; omega)]
  simp only [Except.map, Except.bind]
  rw [readUInt8_ok buf (byteAt buf 0 + byteAt buf (byteAt buf 0 + 1) + 5)
    (by simp only [nLen, mLen, oLen] at hmin; omega)]
  simp only [Except.bind, nLen, mLen, oLen, dLen, parseMinLen]
  simp [Pure.pure, Except.pure, Except.map]

theorem lt_of_getElem?_eq_some {l : List Nat} {i v : Nat} (h : l[i]? = some v) :
    i < l.length := by
  by_contra hc
  rw [List.getElem?_eq_none_iff.mpr (by omega)] at h
  cases h

/-- Failure form of `parseServerInfo`: a buffer too short for some mandatory
byte read makes the decode throw (no record at all). -/
theorem parseServerInfo_isOk_false (buf : List Nat) (h : buf.length < parseMinLen buf) :
    (parseServerInfo buf).isOk = false := by
  unfold parseServerInfo readInt8
  cases hq0 : buf[0]? with
  | none =>
    simp [readUInt8, hq0, Bind.bind, Except.bind, Except.isOk, Except.toBool]
  | some n =>
    cases hq1 : buf[n + 1]? with
    | none =>
      simp [readUInt8, hq0, hq1, byteAt, Bind.bind, Except.bind, Except.isOk, Except.toBool]
    | some m =>
      cases hq2 : buf[n + m + 14]? with
      | none =>
        simp [readUInt8, hq0, hq1, hq2, byteAt, Bind.bind, Except.bind, Except.isOk,
          Except.toBool]
      | some o =>
        cases hq3 : buf[n + m + 20 + o]? with
        | none =>
          simp [readUInt8, hq0, hq1, hq2, hq3, byteAt, Bind.bind, Except.bind, Except.map,
            Except.isOk, Except.toBool]
        | some d =>
          exfalso
          have hmin : parseMinLen buf = n + m + 21 + o := by
            simp [parseMinLen, nLen, mLen, oLen, byteAt, hq0, hq1, hq2]
          have hlt := lt_of_getElem?_eq_some hq3
          omega

/-- v0 decode succeeds exactly when the buffer covers all five mandatory byte
reads; the farthest is the description length at `parseMinLen buf - 1`. -/
theorem parseServerInfo_isOk_iff (buf : List Nat) :
    (parseServerInfo buf).isOk = true ↔ parseMinLen buf ≤ buf.length := by
  constructor
  · intro h
    by_contra hc
    rw [parseServerInfo_isOk_false buf (by omega)] at h
    cases h
  · intro h
    rw [parseServerInfo_ok_of_le buf h]
    rfl

/-- Inversion: a successful decode determines the record. -/
theorem parseServerInfo_ok_inv (buf : List Nat) (rec0 : ServerRecord)
    (h : parseServerInfo buf = .ok rec0) :
    parseMinLen buf ≤ buf.length ∧
    rec0 = { name := pctBytes (replaceFirstBB (bufToString buf 1 ((nLen buf : Int) - 1)))
             description := pctBytes (replaceFirstBB (bufToString buf (parseMinLen buf : Int)
               ((parseMinLen buf : Int) + dLen buf)))
             players := byteAt buf (nLen buf + mLen buf + 5)
             map := pctBytes (replaceFirstBB (bufToString buf ((nLen buf : Int) + 2)
               ((nLen buf : Int) + 2 + (mLen buf : Int)))) } := by
  have hlen : parseMinLen buf ≤ buf.length := by
    rw [← parseServerInfo_isOk_iff, h]
    rfl
  refine ⟨hlen, ?_⟩
  have h2 := parseServerInfo_ok_of_le buf hlen
  rw [h] at h2
  injection h2

theorem replaceFirstBB_cons_ne (x : Nat) (rest : List Nat)
    (h : ¬(x = 91 ∧ rest.head? = some 93)) :
    replaceFirstBB (x :: rest) = x :: replaceFirstBB rest := by
  conv_lhs => unfold replaceFirstBB
  rw [if_neg h]

theorem replaceFirstBB_first (a b : List Nat) (ha : hasBB a = false) :
    replaceFirstBB (a ++ 91 :: 93 :: b) = a ++ 32 :: b := by
  induction a with
  | nil =>
    simp [replaceFirstBB]
  | cons x a2 ih =>
    simp only [hasBB, Bool.or_eq_false_iff, Bool.and_eq_false_iff] at ha
    obtain ⟨ha1, ha2⟩ := ha
    have hx : ¬(x = 91 ∧ (a2 ++ 91 :: 93 :: b).head? = some 93) := by
      rintro ⟨h91, hh⟩
      cases a2 with
      | nil => simp at hh
      | cons y a3 =>
        simp only [List.cons_append, List.head?_cons, Option.some.injEq] at hh
        rcases ha1 with h1 | h1
        · exact absurd h91 (by simpa using h1)
        · rw [hh] at h1
          simp at h1
    rw [List.cons_append, replaceFirstBB_cons_ne x _ hx, ih ha2, List.cons_append]

/-- Name region of `parseServerInfo` as a plain slice: bytes `[1, n-1)`, empty
when `n ≤ 2` because the clamped end does not pass the start. -/
theorem bufToString_name_region (buf : List Nat) (h : parseMinLen buf ≤ buf.length) :
    bufToString buf 1 ((nLen buf : Int) - 1) = (buf.drop 1).take (nLen buf - 2) := by
  have h21 : nLen buf + 21 ≤ buf.length := by
    unfold parseMinLen at h
    omega
  have hcl : clampEnd buf.length ((nLen buf : Int) - 1) = (nLen buf : Int) - 1 := by
    unfold clampEnd
    rw [if_neg (by push_cast; omega)]
  unfold bufToString
  rw [hcl]
  rw [if_neg (by push_cast; omega)]
  by_cases hn2 : nLen buf ≤ 2
  · rw [if_pos (by omega)]
    rw [show nLen buf - 2 = 0 by omega]
    simp
  · rw [if_neg (by omega)]
    have ht : ((nLen buf : Int) - 1).toNat = nLen buf - 1 := by omega
    have h1 : ((1 : Int)).toNat = 1 := rfl
    rw [ht, h1]
    rw [show nLen buf - 1 - 1 = nLen buf - 2 by omega]

/-- C4 (corrected): the color-tag rewrite is total (a function of the whole
input) and idempotent, and one pass removes every occurrence of the pattern
the regex actually matches — a bracketed nonempty run over `[a-z0-9#]`.
The claim's "alphanumeric" further included uppercase letters; those are
outside the class (see the counterexample). -/
theorem c4_color_rewrite_idempotent (s : List Char) :
    processColorTags (processColorTags s) = processColorTags s ∧
    noColorTag (processColorTags s) = true :=
  ⟨processColorTags_idem s, processColorTags_clean s⟩

/-- C4 counterexample: `[A]` is a bracketed alphanumeric token, but one pass
of `processColorTags` leaves it unchanged instead of producing `{A}` — the
regex class `[a-z0-9#]` has no uppercase letters. -/
theorem c4_counterexample :
    processColorTags ('[' :: 'A' :: ']' :: []) = '[' :: 'A' :: ']' :: [] ∧
    processColorTags ('[' :: 'A' :: ']' :: []) ≠ '{' :: 'A' :: '}' :: [] := by
  decide

/-- C10 (confirmed): the decoder's `replace("[]", " ")` touches only the
first occurrence of the two-byte sequence `[]` — everything after it,
including later `[]` occurrences, is returned verbatim — and each of the
extracted name, map, and description regions goes through exactly this
replacement before the color-tag rewrite. -/
theorem c10_first_bracket_pair_only :
    (∀ a b : List Nat, hasBB a = false →
      replaceFirstBB (a ++ 91 :: 93 :: b) = a ++ 32 :: b) ∧
    (∀ (buf : List Nat) (rec0 : ServerRecord), parseServerInfo buf = .ok rec0 →
      rec0.name = pctBytes (replaceFirstBB (bufToString buf 1 ((nLen buf : Int) - 1))) ∧
      rec0.map = pctBytes (replaceFirstBB (bufToString buf ((nLen buf : Int) + 2)
        ((nLen buf : Int) + 2 + (mLen buf : Int)))) ∧
      rec0.description = pctBytes (replaceFirstBB (bufToString buf (parseMinLen buf : Int)
        ((parseMinLen buf : Int) + dLen buf)))) := by
  constructor
  · exact replaceFirstBB_first
  · intro buf rec0 h
    obtain ⟨_, hrec⟩ := parseServerInfo_ok_inv buf rec0 h
    subst hrec
    exact ⟨rfl, rfl, rfl⟩

/-- C10 witness: with `a = [97]` and a second `[]` in the tail, only the
first `[]` becomes a space and the later one survives. -/
theorem c10_witness :
    replaceFirstBB ([97] ++ 91 :: 93 :: [91, 93]) = [97] ++ 32 :: [91, 93] :=
  c10_first_bracket_pair_only.1 [97] [91, 93] (by decide)

/-- C7 (corrected): for every accepted payload the name is the UTF-8 text of
bytes `[1, L1-1)` — but additionally post-processed by the first-`[]`-to-space
replacement before the color-tag rewrite, which the claim omitted. -/
theorem c7_name_field (buf : List Nat) (rec0 : ServerRecord)
    (h : parseServerInfo buf = .ok rec0) :
    rec0.name = pctBytes (replaceFirstBB ((buf.drop 1).take (nLen buf - 2))) := by
  obtain ⟨hlen, hrec⟩ := parseServerInfo_ok_inv buf rec0 h
  subst hrec
  show pctBytes (replaceFirstBB (bufToString buf 1 ((nLen buf : Int) - 1))) = _
  rw [bufToString_name_region buf hlen]

/-- C7 counterexample: a payload whose name region is `[]a` (bytes 91 93 97).
The decode succeeds with name `" a"` (32, 97), while the claim's value — the
color-tag rewrite alone applied to the raw region — is `[]a` unchanged. -/
theorem c7_counterexample :
    (parseServerInfo (5 :: 91 :: 93 :: 97 :: List.replicate 22 0)).map (fun r => r.name) =
      .ok [32, 97] ∧
    pctBytes (((5 :: 91 :: 93 :: 97 :: List.replicate 22 0).drop 1).take (5 - 2)) =
      [91, 93, 97] ∧
    ([32, 97] : List Nat) ≠ [91, 93, 97] := by
  decide

/-- C7 witness: the theorem applied to the minimal all-zero payload. -/
theorem c7_witness :
    parseServerInfo (List.replicate 21 0) = .ok ⟨[], [], 0, []⟩ ∧
    (⟨[], [], 0, []⟩ : ServerRecord).name = pctBytes (replaceFirstBB
      (((List.replicate 21 0).drop 1).take (nLen (List.replicate 21 0) - 2))) :=
  ⟨by decide, c7_name_field (List.replicate 21 0) ⟨[], [], 0, []⟩ (by decide)⟩

/-- C2 (corrected): the decode fails with an explicit error exactly when one
of the five mandatory single-byte reads is out of bounds — equivalently when
the buffer is shorter than `parseMinLen` — in particular for every payload
shorter than 2 bytes; on failure no record at all is produced (all-or-nothing
by construction).  v1's `parseHexPayload` succeeds exactly on nonempty all-hex
strings regardless of length.  Declared string spans, unlike the five byte
reads, are clamped, not rejected (see the counterexample). -/
theorem c2_decode_bounds :
    (∀ buf : List Nat, buf.length < 2 → (parseServerInfo buf).isOk = false) ∧
    (∀ buf : List Nat, (parseServerInfo buf).isOk = true ↔ parseMinLen buf ≤ buf.length) ∧
    (∀ s : List Char, (parseHexPayload s).isOk = true ↔ (s ≠ [] ∧ s.all isHexChar = true)) := by
  refine ⟨?_, parseServerInfo_isOk_iff, ?_⟩
  · intro buf h
    apply parseServerInfo_isOk_false
    have h21 : 21 ≤ parseMinLen buf := by unfold parseMinLen; omega
    omega
  · intro s
    unfold parseHexPayload
    by_cases h : s ≠ [] ∧ s.all isHexChar = true
    · rw [if_pos h]
      exact ⟨fun _ => h, fun _ => rfl⟩
    · rw [if_neg h]
      refine ⟨fun hh => ?_, fun hh => absurd hh h⟩
      simp [Except.isOk, Except.toBool] at hh

/-- C2 counterexample: a 21-byte payload declaring a 5-byte description that
would extend to offset 26 decodes successfully (the slice clamps to the
buffer), and a 1-byte payload (hex `"ab"`) decodes successfully in v1 —
the claim said both must fail with a DecodeError. -/
theorem c2_counterexample :
    (parseServerInfo (List.replicate 20 0 ++ [5])).isOk = true ∧
    descDeclaredEnd (List.replicate 20 0 ++ [5]) = 26 ∧
    (List.replicate 20 0 ++ [5]).length = 21 ∧
    (parseHexPayload ['a', 'b']).isOk = true ∧
    (hexToBytes ['a', 'b']).length = 1 := by
  decide

/-- C2 witness: the theorem applied at concrete inputs. -/
theorem c2_witness :
    (parseServerInfo [5]).isOk = false ∧
    (parseServerInfo (List.replicate 21 0)).isOk = true :=
  ⟨c2_decode_bounds.1 [5] (by decide),
   (c2_decode_bounds.2.1 (List.replicate 21 0)).mpr (by decide)⟩

/-- C9 (confirmed): the target loader splits each address on `':'` and keeps
only the first two segments — host is the text before the first colon, port
is `parseInt` of the text between the first and second colon (so a
non-numeric port becomes `NaN` = `none`, yet the target is still kept), any
segments after the second colon are silently dropped, and a colon-free
address gets port 6567. -/
theorem c9_load_servers :
    (∀ label addr : List Char, ':' ∈ addr →
      (parseAddr label addr).host = addr.takeWhile (fun c => decide (c ≠ ':')) ∧
      (parseAddr label addr).port =
        jsParseInt (((addr.dropWhile (fun c => decide (c ≠ ':'))).tail).takeWhile
          (fun c => decide (c ≠ ':')))) ∧
    (∀ label addr : List Char, ':' ∉ addr →
      parseAddr label addr = ⟨addr, some 6567, label⟩) ∧
    (∀ groups : List (List Char × List (List Char)),
      (loadServers groups).length = (groups.map (fun g => g.2.length)).sum) ∧
    jsParseInt ('a' :: 'b' :: 'c' :: []) = none := by
  refine ⟨?_, ?_, ?_, by decide⟩
  · intro label addr hmem
    unfold parseAddr
    rw [if_pos hmem]
    exact ⟨splitChar_head ':' addr, by rw [splitChar_second ':' addr hmem]⟩
  · intro label addr hmem
    unfold parseAddr
    rw [if_neg hmem]
  · intro groups
    unfold loadServers
    have haux : ∀ acc : List Target,
        (groups.foldl (fun acc g => acc ++ g.2.map (parseAddr g.1)) acc).length =
          acc.length + (groups.map (fun g => g.2.length)).sum := by
      induction groups with
      | nil => intro acc; simp
      | cons g gs ih =>
        intro acc
        simp only [List.foldl_cons, List.map_cons, List.sum_cons]
        rw [ih (acc ++ g.2.map (parseAddr g.1))]
        simp
        omega
    simpa using haux []

/-- C9 witness: `"h:p"` splits into host `"h"` and `NaN` port; `"h"` keeps
the default port. -/
theorem c9_witness :
    (parseAddr ['g'] ('h' :: ':' :: 'p' :: [])).host =
      ('h' :: ':' :: 'p' :: []).takeWhile (fun c => decide (c ≠ ':')) ∧
    parseAddr ['g'] ['h'] = ⟨['h'], some 6567, ['g']⟩ :=
  ⟨(c9_load_servers.1 ['g'] ('h' :: ':' :: 'p' :: []) (by decide)).1,
   c9_load_servers.2.1 ['g'] ['h'] (by decide)⟩

/-- C8 (confirmed): in every ReplySet the probe builds — under either
variant's correlation policy, abstracted as `keyFn` — a key present maps to
the nonempty list of exactly the replies of the events attributed to it, in
arrival order, so an entry exists only if at least one datagram was
attributed to that key. -/
theorem c8_replyset_invariants (keyFn : UdpEvent → List Char) (evs : List UdpEvent)
    (k : List Char) (l : List V0Reply)
    (h : lookupKey (collectReplies keyFn evs) k = some l) :
    l ≠ [] ∧ l = (evs.filter fun e => decide (keyFn e = k)).map mkReplyV0 ∧
      ∃ e ∈ evs, keyFn e = k := by
  have hval := lookupKey_collectBy keyFn mkReplyV0 evs [] k
  simp only [collectReplies] at h
  rw [h] at hval
  simp only [Option.getD_some, lookupKey, Option.getD_none, List.nil_append] at hval
  have hne : l ≠ [] := by
    have hmem := lookupKey_mem _ _ _ h
    exact collectBy_values_ne_nil keyFn mkReplyV0 evs [] (by simp) (k, l) hmem
  refine ⟨hne, hval, ?_⟩
  have hfil : (evs.filter fun e => decide (keyFn e = k)) ≠ [] := by
    intro hz
    rw [hval, hz] at hne
    simp at hne
  obtain ⟨e, he⟩ := List.exists_mem_of_ne_nil _ hfil
  have h2 := List.mem_filter.mp he
  exact ⟨e, h2.1, by simpa using h2.2⟩

/-- C8 witness: one event under the raw-key policy. -/
theorem c8_witness :
    ([⟨5, [7]⟩] : List V0Reply) ≠ [] ∧
    ([⟨5, [7]⟩] : List V0Reply) =
      (([⟨['a'], 1, [7], 5⟩] : List UdpEvent).filter
        (fun e => decide (rawKey e = rawKey ⟨['a'], 1, [7], 5⟩))).map mkReplyV0 ∧
    ∃ e ∈ ([⟨['a'], 1, [7], 5⟩] : List UdpEvent), rawKey e = rawKey ⟨['a'], 1, [7], 5⟩ :=
  c8_replyset_invariants rawKey [⟨['a'], 1, [7], 5⟩] (rawKey ⟨['a'], 1, [7], 5⟩)
    [⟨5, [7]⟩] (by decide)

/-- The `endsWith(":" + rinfo.port)` test on a declared key holds exactly when
the declared port equals the reply's source port: the digit rendering of the
port part lines up with the suffix only at the separating colon. -/
theorem jsEndsWith_keyOf_iff (t : Target) (p : Nat) :
    jsEndsWith (keyOf t) (':' :: natChars p) = true ↔ t.port = some (p : Int) := by
  unfold jsEndsWith keyOf
  rw [decide_eq_true_eq]
  rw [colon_suffix_iff t.host (numChars t.port) (natChars p)
    (colon_not_mem_numChars t.port) (colon_not_mem_natChars p)]
  exact numChars_eq_natChars_iff t.port p

theorem find_key_by_port (ts : List Target) (p : Nat) :
    ((∃ t ∈ ts, t.port = some (p : Int)) →
      ∃ t ∈ ts, t.port = some (p : Int) ∧
        (ts.map keyOf).find? (fun k => jsEndsWith k (':' :: natChars p)) = some (keyOf t)) ∧
    ((∀ t ∈ ts, t.port ≠ some (p : Int)) →
      (ts.map keyOf).find? (fun k => jsEndsWith k (':' :: natChars p)) = none) := by
  induction ts with
  | nil =>
    constructor
    · rintro ⟨t, ht, _⟩
      cases ht
    · intro _
      rfl
  | cons t ts ih =>
    constructor
    · rintro ⟨t0, ht0, hp0⟩
      by_cases hmatch : jsEndsWith (keyOf t) (':' :: natChars p) = true
      · refine ⟨t, List.mem_cons_self _ _, (jsEndsWith_keyOf_iff t p).mp hmatch, ?_⟩
        simp [List.find?_cons, hmatch]
      · have hport : t.port ≠ some (p : Int) := fun hc =>
          hmatch ((jsEndsWith_keyOf_iff t p).mpr hc)
        have htl : t0 ∈ ts := by
          rcases List.mem_cons.mp ht0 with h1 | h1
          · exact absurd (h1 ▸ hp0) hport
          · exact h1
        obtain ⟨t1, ht1, hp1, hfind⟩ := ih.1 ⟨t0, htl, hp0⟩
        refine ⟨t1, List.mem_cons_of_mem _ ht1, hp1, ?_⟩
        simp only [List.map_cons, List.find?_cons]
        simp only [Bool.not_eq_true] at hmatch
        rw [hmatch, hfind]
    · intro hall
      have hmatch : ¬jsEndsWith (keyOf t) (':' :: natChars p) = true := fun hc =>
        hall t (List.mem_cons_self _ _) ((jsEndsWith_keyOf_iff t p).mp hc)
      simp only [Bool.not_eq_true] at hmatch
      simp only [List.map_cons, List.find?_cons]
      rw [hmatch]
      exact ih.2 fun t2 ht2 => hall t2 (List.mem_cons_of_mem _ ht2)

/-- C3 (corrected): in the part_000 variant, a reply whose source port equals
some declared target port is recorded under (the first) such target's
declared `host:port` key, and a reply matching no declared port is recorded
under the raw `sourceAddress:sourcePort` key; in both cases the reply is
appended to that key's list, never dropped.  The part_001 variant, by
contrast, always records under the raw source key (third clause), with no
secondary match — see the counterexample. -/
theorem c3_correlation :
    (∀ (ts : List Target) (ev : UdpEvent),
      ((∃ t ∈ ts, t.port = some (ev.sourcePort : Int)) →
        ∃ t ∈ ts, t.port = some (ev.sourcePort : Int) ∧
          matchedKeyV0 (ts.map keyOf) ev = keyOf t) ∧
      ((∀ t ∈ ts, t.port ≠ some (ev.sourcePort : Int)) →
        matchedKeyV0 (ts.map keyOf) ev = rawKey ev)) ∧
    (∀ (keys : List (List Char)) (acc : List (List Char × List V0Reply)) (ev : UdpEvent),
      (lookupKey (pushEntry acc (matchedKeyV0 keys ev) (mkReplyV0 ev))
        (matchedKeyV0 keys ev)).getD [] =
        (lookupKey acc (matchedKeyV0 keys ev)).getD [] ++ [mkReplyV0 ev]) ∧
    (∀ (acc : List (List Char × List V1Reply)) (ev : UdpEvent),
      (lookupKey (pushEntry acc (rawKey ev) (mkReplyV1 ev)) (rawKey ev)).getD [] =
        (lookupKey acc (rawKey ev)).getD [] ++ [mkReplyV1 ev]) := by
  refine ⟨?_, ?_, ?_⟩
  · intro ts ev
    constructor
    · intro hex
      obtain ⟨t1, ht1, hp1, hfind⟩ := (find_key_by_port ts ev.sourcePort).1 hex
      exact ⟨t1, ht1, hp1, by unfold matchedKeyV0; rw [hfind]⟩
    · intro hall
      unfold matchedKeyV0
      rw [(find_key_by_port ts ev.sourcePort).2 hall]
  · intro keys acc ev
    rw [lookupKey_pushEntry_self]
    simp
  · intro acc ev
    rw [lookupKey_pushEntry_self]
    simp

/-- C3 counterexample: target `example.com:6567` declared, reply from
`203.0.113.5:6567` — the source port equals the declared port, yet v1's
ReplySet has no entry under the declared key and records the reply under the
raw IP key. -/
theorem c3_counterexample :
    lookupKey (collectRepliesV1 [⟨("203.0.113.5").toList, 6567, [1, 2], 9⟩])
      (("example.com").toList ++ ':' :: natChars 6567) = none ∧
    lookupKey (collectRepliesV1 [⟨("203.0.113.5").toList, 6567, [1, 2], 9⟩])
      (("203.0.113.5").toList ++ ':' :: natChars 6567) = some [⟨9, bytesToHex [1, 2]⟩] ∧
    (⟨("example.com").toList, some 6567, []⟩ : Target).port = some ((6567 : Nat) : Int) := by
  decide

/-- C3 witness: one declared target with port 6567 and a reply from a
different address with source port 6567 lands under the declared key. -/
theorem c3_witness :
    ∃ t ∈ ([⟨['h'], some 6567, ['g']⟩] : List Target),
      t.port = some (((⟨['a'], 6567, [], 3⟩ : UdpEvent).sourcePort : Nat) : Int) ∧
      matchedKeyV0 (([⟨['h'], some 6567, ['g']⟩] : List Target).map keyOf)
        ⟨['a'], 6567, [], 3⟩ = keyOf t :=
  (c3_correlation.1 [⟨['h'], some 6567, ['g']⟩] ⟨['a'], 6567, [], 3⟩).1
    ⟨⟨['h'], some 6567, ['g']⟩, by decide, by decide⟩

/-- C1 (corrected): for every key with at least two replies, the Report entry
counts the whole reply list (`sentPackets` in v0, `all_responses` in v1) and
its decoded fields come from a reply with the maximal timestamp — but the two
variants break timestamp ties in opposite ways: v0 sorts descending and takes
index 0, so the earliest-appended reply among the maximal timestamps wins
(strict inequality on the prefix), while v1 sorts ascending and takes the
last element, so the latest-appended one wins (strict inequality on the
suffix). -/
theorem c1_latest_reply_chosen :
    (∀ (pingOf : List Char → List Char) (fmt : Nat → List Char) (now address : List Char)
        (inputData : List (List Char × List V0Reply)) (l : List V0Reply),
      (address, l) ∈ inputData → 2 ≤ l.length →
      ∃ r u v, l = u ++ r :: v ∧ (∀ a ∈ u, a.timestamp < r.timestamp) ∧
        (∀ b ∈ v, b.timestamp ≤ r.timestamp) ∧
        v0Entry pingOf fmt now address l ∈ processEnhancedData pingOf fmt now inputData ∧
        ∀ rec0 : ServerRecord, parseServerInfo r.response = .ok rec0 →
          v0Entry pingOf fmt now address l =
            { ip := displayAddress address, name := rec0.name, players := some rec0.players,
              map := rec0.map, description := rec0.description,
              ping := pingOf (hostOf address), updatedAt := fmt r.timestamp,
              sentPackets := l.length, receivedMeta := r.response.length }) ∧
    (∀ (fmt : Nat → List Char) (now address : List Char) (l : List V1Reply),
      2 ≤ l.length →
      ∃ r u v, l = u ++ r :: v ∧ (∀ a ∈ u, a.timestamp ≤ r.timestamp) ∧
        (∀ b ∈ v, b.timestamp < r.timestamp) ∧
        (v1Step fmt now address l).2.raw_hex = r.response ∧
        (v1Step fmt now address l).2.all_responses.length = l.length ∧
        ∀ payload : List Nat, parseHexPayload r.response = .ok payload →
          (v1Step fmt now address l).2.name = (v1Fields payload).1) := by
  constructor
  · intro pingOf fmt now address inputData l hmem hlen
    have hne : l ≠ [] := by
      intro h
      rw [h] at hlen
      simp at hlen
    cases hsel : latestKeepFirst (fun r => r.timestamp) l with
    | none => exact absurd (latestKeepFirst_eq_none _ l hsel) hne
    | some r =>
      obtain ⟨u, v, hdec, hu, hv⟩ := latestKeepFirst_spec (fun r => r.timestamp) l r hsel
      refine ⟨r, u, v, hdec, hu, hv, ?_, ?_⟩
      · exact List.mem_map.mpr ⟨(address, l), hmem, rfl⟩
      · intro rec0 hrec
        have hhead : (sortDescTs (fun r => r.timestamp) l).head? = some r := by
          rw [sortDescTs_head]
          exact hsel
        unfold v0Entry
        rw [hhead]
        dsimp only
        rw [hrec]
  · intro fmt now address l hlen
    have hne : l ≠ [] := by
      intro h
      rw [h] at hlen
      simp at hlen
    cases hsel : latestKeepLast (fun r => r.timestamp) l with
    | none => exact absurd (latestKeepLast_eq_none _ l hsel) hne
    | some r =>
      obtain ⟨u, v, hdec, hu, hv⟩ := latestKeepLast_spec (fun r => r.timestamp) l r hsel
      have hlast : (sortAscTs (fun r => r.timestamp) l).getLast? = some r := by
        rw [sortAscTs_getLast]
        exact hsel
      refine ⟨r, u, v, hdec, hu, hv, ?_, ?_, ?_⟩
      · unfold v1Step
        rw [hlast]
        dsimp only
        cases hp : parseHexPayload r.response <;> rfl
      · unfold v1Step
        rw [hlast]
        dsimp only
        cases hp : parseHexPayload r.response <;>
          simp [length_sortAscTs]
      · intro payload hp
        unfold v1Step
        rw [hlast]
        dsimp only
        rw [hp]

/-- C1 counterexample: two replies with the same timestamp but different
payloads (player counts 1 and 2).  The claim says the last-appended reply
(players 2) is authoritative, but v0's aggregation reports players 1 — the
stable descending sort keeps the first-appended reply at index 0. -/
theorem c1_counterexample :
    (processEnhancedData (fun _ => []) (fun _ => []) []
      [(['k'], [⟨5, [0, 0, 0, 0, 0, 1, 0, 0, 0, 0, 0, 0, 0, 0, 0, 0, 0, 0, 0, 0, 0]⟩,
                ⟨5, [0, 0, 0, 0, 0, 2, 0, 0, 0, 0, 0, 0, 0, 0, 0, 0, 0, 0, 0, 0, 0]⟩])]).map
        (fun e => e.players) = [some 1] ∧
    (parseServerInfo [0, 0, 0, 0, 0, 2, 0, 0, 0, 0, 0, 0, 0, 0, 0, 0, 0, 0, 0, 0, 0]).map
      (fun r => r.players) = .ok 2 ∧
    (⟨5, [0, 0, 0, 0, 0, 1, 0, 0, 0, 0, 0, 0, 0, 0, 0, 0, 0, 0, 0, 0, 0]⟩ : V0Reply).timestamp =
      (⟨5, [0, 0, 0, 0, 0, 2, 0, 0, 0, 0, 0, 0, 0, 0, 0, 0, 0, 0, 0, 0, 0]⟩ : V0Reply).timestamp := by
  decide

/-- C1 witness: the v0 clause applied to a key with two distinct-timestamp
replies. -/
theorem c1_witness :
    ∃ r u v, ([⟨1, List.replicate 21 0⟩, ⟨2, List.replicate 21 0⟩] : List V0Reply) =
        u ++ r :: v ∧
      (∀ a ∈ u, a.timestamp < r.timestamp) ∧
      (∀ b ∈ v, b.timestamp ≤ r.timestamp) ∧
      v0Entry (fun _ => []) (fun _ => []) [] ['k']
          [⟨1, List.replicate 21 0⟩, ⟨2, List.replicate 21 0⟩] ∈
        processEnhancedData (fun _ => []) (fun _ => []) []
          [(['k'], [⟨1, List.replicate 21 0⟩, ⟨2, List.replicate 21 0⟩])] ∧
      ∀ rec0 : ServerRecord, parseServerInfo r.response = .ok rec0 →
        v0Entry (fun _ => []) (fun _ => []) [] ['k']
            [⟨1, List.replicate 21 0⟩, ⟨2, List.replicate 21 0⟩] =
          { ip := displayAddress ['k'], name := rec0.name, players := some rec0.players,
            map := rec0.map, description := rec0.description,
            ping := (fun _ => ([] : List Char)) (hostOf ['k']),
            updatedAt := (fun _ => ([] : List Char)) r.timestamp,
            sentPackets := 2, receivedMeta := r.response.length } :=
  c1_latest_reply_chosen.1 (fun _ => []) (fun _ => []) [] ['k']
    [(['k'], [⟨1, List.replicate 21 0⟩, ⟨2, List.replicate 21 0⟩])]
    [⟨1, List.replicate 21 0⟩, ⟨2, List.replicate 21 0⟩] (by decide) (by decide)

/-! ### Report keys and the non-responding list -/

theorem colon_mem_keyOf (t : Target) : ':' ∈ keyOf t := by
  unfold keyOf
  exact List.mem_append.mpr (Or.inr (List.mem_cons_self _ _))

/-- v1's Report key for an address is the address itself or its colon-free
first segment. -/
theorem outKeyV1_eq_or_no_colon (a : List Char) :
    outKeyV1 a = a ∨ ':' ∉ outKeyV1 a := by
  unfold outKeyV1
  cases hsp : splitChar ':' a with
  | nil => exact Or.inl rfl
  | cons d ss =>
    have hd : ':' ∉ d :=
      splitChar_sep_not_mem ':' a d (hsp ▸ List.mem_cons_self _ _)
    cases ss with
    | nil => exact Or.inr hd
    | cons p rest =>
      dsimp only
      by_cases hp : p = []
      · rw [if_pos hp]
        exact Or.inr hd
      · rw [if_neg hp]
        by_cases hpp : jsParseInt p = some 6567
        · rw [if_pos hpp]
          exact Or.inr hd
        · rw [if_neg hpp]
          exact Or.inl rfl

/-- The key a v1 aggregation step stores its entry under. -/
theorem v1Step_key (fmt : Nat → List Char) (now address : List Char) (l : List V1Reply) :
    (v1Step fmt now address l).1 = address ∨
      (v1Step fmt now address l).1 = outKeyV1 address := by
  unfold v1Step
  cases (sortAscTs (fun r => r.timestamp) l).getLast? with
  | none => exact Or.inl rfl
  | some final =>
    dsimp only
    cases parseHexPayload final.response with
    | ok payload => exact Or.inr rfl
    | error msg => exact Or.inl rfl

theorem mem_jsSet {κ ν : Type} [DecidableEq κ] (m : List (κ × ν)) (k : κ) (v : ν)
    (q : κ × ν) (h : q ∈ jsSet m k v) : q = (k, v) ∨ q ∈ m := by
  induction m with
  | nil => simpa [jsSet] using h
  | cons p rest ih =>
    obtain ⟨k2, w⟩ := p
    simp only [jsSet] at h
    by_cases h2 : k2 = k
    · rw [if_pos h2] at h
      rcases List.mem_cons.mp h with h3 | h3
      · exact Or.inl (by rw [h3, h2])
      · exact Or.inr (List.mem_cons_of_mem _ h3)
    · rw [if_neg h2] at h
      rcases List.mem_cons.mp h with h3 | h3
      · exact Or.inr (h3 ▸ List.mem_cons_self _ _)
      · rcases ih h3 with h4 | h4
        · exact Or.inl h4
        · exact Or.inr (List.mem_cons_of_mem _ h4)

/-- Every key of the v1 Report is an input key or is colon-free. -/
theorem processEnhancedDataV1_keys (fmt : Nat → List Char) (now : List Char)
    (input : List (List Char × List V1Reply)) :
    ∀ q ∈ processEnhancedDataV1 fmt now input,
      q.1 ∈ input.map Prod.fst ∨ ':' ∉ q.1 := by
  unfold processEnhancedDataV1
  have haux : ∀ (inp : List (List Char × List V1Reply))
      (acc : List (List Char × V1Entry)),
      (∀ q ∈ acc, q.1 ∈ input.map Prod.fst ∨ ':' ∉ q.1) →
      (∀ p ∈ inp, p ∈ input) →
      ∀ q ∈ inp.foldl (fun res p => jsSet res (v1Step fmt now p.1 p.2).1
          (v1Step fmt now p.1 p.2).2) acc,
        q.1 ∈ input.map Prod.fst ∨ ':' ∉ q.1 := by
    intro inp
    induction inp with
    | nil => intro acc hacc _ q hq; exact hacc q hq
    | cons p rest ih =>
      intro acc hacc hmem q hq
      simp only [List.foldl_cons] at hq
      refine ih _ ?_ (fun p2 hp2 => hmem p2 (List.mem_cons_of_mem _ hp2)) q hq
      intro q2 hq2
      rcases mem_jsSet _ _ _ q2 hq2 with h1 | h1
      · have hkey := v1Step_key fmt now p.1 p.2
        have hp1 : p.1 ∈ input.map Prod.fst :=
          List.mem_map.mpr ⟨p, hmem p (List.mem_cons_self _ _), rfl⟩
        rcases hkey with h2 | h2
        · left
          rw [h1]
          simpa [h2] using hp1
        · rcases outKeyV1_eq_or_no_colon p.1 with h3 | h3
          · left
            rw [h1]
            simp only [h2, h3]
            exact hp1
          · right
            rw [h1]
            simpa [h2] using h3
      · exact hacc q2 h1
  exact haux input [] (by simp) (fun p hp => hp)

/-- C5 (confirmed): a target whose declared key has no ReplySet entry after
the window closes is in the non-responding list and its key appears nowhere
in the v1 Report (Report keys are ReplySet keys or colon-free domains, and a
declared key always contains a colon); a target whose key has a ReplySet
entry is not in the non-responding list. -/
theorem c5_non_responding (ts : List Target) (fmt : Nat → List Char) (now : List Char)
    (input : List (List Char × List V1Reply)) (t : Target) (ht : t ∈ ts) :
    (keyOf t ∉ input.map Prod.fst →
      t ∈ noResponseServers ts (input.map Prod.fst) ∧
      ∀ q ∈ processEnhancedDataV1 fmt now input, q.1 ≠ keyOf t) ∧
    (keyOf t ∈ input.map Prod.fst →
      t ∉ noResponseServers ts (input.map Prod.fst)) := by
  constructor
  · intro habs
    constructor
    · unfold noResponseServers
      exact List.mem_filter.mpr ⟨ht, by simpa using habs⟩
    · intro q hq hqe
      rcases processEnhancedDataV1_keys fmt now input q hq with h1 | h1
      · rw [hqe] at h1
        exact habs h1
      · rw [hqe] at h1
        exact h1 (colon_mem_keyOf t)
  · intro hmem hcon
    unfold noResponseServers at hcon
    have h2 := (List.mem_filter.mp hcon).2
    rw [decide_eq_true_eq] at h2
    exact h2 hmem

/-- C5 witness: a declared target absent from a one-key ReplySet. -/
theorem c5_witness :
    (⟨['h'], some 6567, ['g']⟩ : Target) ∈
      noResponseServers [⟨['h'], some 6567, ['g']⟩]
        (([(['x', ':', '1'], [])] : List (List Char × List V1Reply)).map Prod.fst) ∧
    ∀ q ∈ processEnhancedDataV1 (fun _ => []) []
        ([(['x', ':', '1'], [])] : List (List Char × List V1Reply)),
      q.1 ≠ keyOf (⟨['h'], some 6567, ['g']⟩ : Target) :=
  (c5_non_responding [⟨['h'], some 6567, ['g']⟩] (fun _ => []) []
    [(['x', ':', '1'], [])] ⟨['h'], some 6567, ['g']⟩ (by decide)).1 (by decide)

/-! ### Failed decodes still produce Report entries -/

theorem lookupKey_jsSet_self {κ ν : Type} [DecidableEq κ] (m : List (κ × ν)) (k : κ) (v : ν) :
    lookupKey (jsSet m k v) k = some v := by
  induction m with
  | nil => simp [jsSet, lookupKey]
  | cons p rest ih =>
    obtain ⟨k2, w⟩ := p
    simp only [jsSet]
    by_cases h2 : k2 = k
    · rw [if_pos h2]
      simp [lookupKey, h2]
    · rw [if_neg h2]
      simp only [lookupKey, if_neg h2]
      exact ih

theorem lookupKey_jsSet_ne {κ ν : Type} [DecidableEq κ] (m : List (κ × ν)) (k k2 : κ) (v : ν)
    (h : k2 ≠ k) : lookupKey (jsSet m k2 v) k = lookupKey m k := by
  induction m with
  | nil => simp [jsSet, lookupKey, h]
  | cons p rest ih =>
    obtain ⟨k3, w⟩ := p
    simp only [jsSet]
    by_cases h3 : k3 = k2
    · rw [if_pos h3]
      simp only [lookupKey]
      rw [if_neg (h3 ▸ h), if_neg (h3 ▸ h)]
    · rw [if_neg h3]
      simp only [lookupKey]
      by_cases h4 : k3 = k
      · rw [if_pos h4, if_pos h4]
      · rw [if_neg h4, if_neg h4]
        exact ih

theorem lookup_foldl_jsSet_no_writer {κ ν μ : Type} [DecidableEq κ]
    (f : κ × μ → κ × ν) (input : List (κ × μ)) (k : κ) :
    ∀ acc : List (κ × ν), (∀ p ∈ input, (f p).1 ≠ k) →
      lookupKey (input.foldl (fun res p => jsSet res (f p).1 (f p).2) acc) k =
        lookupKey acc k := by
  induction input with
  | nil => intro acc _; rfl
  | cons p rest ih =>
    intro acc hno
    simp only [List.foldl_cons]
    rw [ih _ (fun q hq => hno q (List.mem_cons_of_mem _ hq))]
    exact lookupKey_jsSet_ne acc k (f p).1 (f p).2 (hno p (List.mem_cons_self _ _))

/-- If some input pair writes `(k, v)` and every pair writing to `k` writes
exactly `(k, v)`, the final object maps `k` to `v` (last writer wins and all
writers agree). -/
theorem lookup_foldl_jsSet_unique {κ ν μ : Type} [DecidableEq κ]
    (f : κ × μ → κ × ν) (input : List (κ × μ)) (k : κ) (v : ν) :
    ∀ acc : List (κ × ν),
      (∃ p ∈ input, f p = (k, v)) →
      (∀ p ∈ input, (f p).1 = k → f p = (k, v)) →
      lookupKey (input.foldl (fun res p => jsSet res (f p).1 (f p).2) acc) k = some v := by
  induction input with
  | nil =>
    rintro acc ⟨p, hp, _⟩ _
    cases hp
  | cons p rest ih =>
    rintro acc ⟨p0, hp0, hf0⟩ huniq
    simp only [List.foldl_cons]
    by_cases hrest : ∃ q ∈ rest, (f q).1 = k
    · obtain ⟨q, hq, hfq⟩ := hrest
      exact ih _ ⟨q, hq, huniq q (List.mem_cons_of_mem _ hq) hfq⟩
        (fun q2 hq2 => huniq q2 (List.mem_cons_of_mem _ hq2))
    · have hp0eq : p0 = p := by
        rcases List.mem_cons.mp hp0 with h1 | h1
        · exact h1
        · exact absurd ⟨p0, h1, by rw [hf0]⟩ hrest
      subst hp0eq
      rw [lookup_foldl_jsSet_no_writer f rest k _
        (fun q hq hk => hrest ⟨q, hq, hk⟩)]
      rw [hf0]
      exact lookupKey_jsSet_self acc k v

theorem nodup_fst_eq {κ ν : Type} (m : List (κ × ν)) (hnd : (m.map Prod.fst).Nodup)
    (a : κ) (b c : ν) (hb : (a, b) ∈ m) (hc : (a, c) ∈ m) : b = c := by
  induction m with
  | nil => cases hb
  | cons p rest ih =>
    simp only [List.map_cons, List.nodup_cons] at hnd
    obtain ⟨hni, hnd2⟩ := hnd
    rcases List.mem_cons.mp hb with h1 | h1 <;> rcases List.mem_cons.mp hc with h2 | h2
    · rw [← h1] at h2
      injection h2 with _ h3
      exact h3.symm
    · exfalso
      apply hni
      rw [← h1]
      exact List.mem_map.mpr ⟨(a, c), h2, rfl⟩
    · exfalso
      apply hni
      rw [← h2]
      exact List.mem_map.mpr ⟨(a, b), h1, rfl⟩
    · exact ih hnd2 h1 h2

/-- C6 (corrected): a key whose authoritative reply fails to decode still
gets a Report entry (never dropped), but the two variants disagree with the
claim on what the failed entry carries: v0's catch branch stores fixed
placeholder text with `sentPackets = 0` and `receivedMeta = 0` — not the raw
payload size and not the error description — while v1's failed entry does
carry the raw hex payload and the error message. -/
theorem c6_failed_decode_entry :
    (∀ (pingOf : List Char → List Char) (fmt : Nat → List Char) (now address : List Char)
        (input : List (List Char × List V0Reply)) (l : List V0Reply) (r : V0Reply)
        (e : DecodeErr),
      (address, l) ∈ input →
      (sortDescTs (fun x => x.timestamp) l).head? = some r →
      parseServerInfo r.response = .error e →
      v0Entry pingOf fmt now address l ∈ processEnhancedData pingOf fmt now input ∧
      v0Entry pingOf fmt now address l = v0FailEntry now address ∧
      (v0FailEntry now address).ip = address ∧
      (v0FailEntry now address).name = utf8Bytes "数据解析失败" ∧
      (v0FailEntry now address).sentPackets = 0 ∧
      (v0FailEntry now address).receivedMeta = 0) ∧
    (∀ (fmt : Nat → List Char) (now address : List Char)
        (input : List (List Char × List V1Reply)) (l : List V1Reply) (r : V1Reply)
        (msg : List Char),
      (input.map Prod.fst).Nodup → (address, l) ∈ input → ':' ∈ address →
      (sortAscTs (fun x => x.timestamp) l).getLast? = some r →
      parseHexPayload r.response = .error msg →
      lookupKey (processEnhancedDataV1 fmt now input) address = some
        { name := utf8Bytes "数据解析失败"
          description := utf8OfChars (("错误详情: ").toList ++ msg)
          last_updated := now
          raw_hex := r.response
          all_responses := sortAscTs (fun x => x.timestamp) l }) := by
  constructor
  · intro pingOf fmt now address input l r e hmem hhead herr
    refine ⟨List.mem_map.mpr ⟨(address, l), hmem, rfl⟩, ?_, rfl, rfl, rfl, rfl⟩
    unfold v0Entry
    rw [hhead]
    dsimp only
    rw [herr]
  · intro fmt now address input l r msg hnd hmem hcolon hlast herr
    have hstep : v1Step fmt now address l =
        (address,
         { name := utf8Bytes "数据解析失败"
           description := utf8OfChars (("错误详情: ").toList ++ msg)
           last_updated := now
           raw_hex := r.response
           all_responses := sortAscTs (fun x => x.timestamp) l }) := by
      unfold v1Step
      rw [hlast]
      dsimp only
      rw [herr]
    unfold processEnhancedDataV1
    apply lookup_foldl_jsSet_unique (fun p => v1Step fmt now p.1 p.2) input address _ []
    · exact ⟨(address, l), hmem, hstep⟩
    · intro p hp hk
      have hp1 : p.1 = address := by
        rcases v1Step_key fmt now p.1 p.2 with h1 | h1
        · rw [← h1, hk]
        · rcases outKeyV1_eq_or_no_colon p.1 with h2 | h2
          · rw [← h2, ← h1, hk]
          · exfalso
            rw [h1] at hk
            rw [hk] at h2
            exact h2 hcolon
      have hml : (address, p.2) ∈ input := by
        rw [← hp1]
        exact hp
      have hp2 := nodup_fst_eq input hnd address p.2 l hml hmem
      have hpeq : p = (address, l) := by
        obtain ⟨q1, q2⟩ := p
        simp only at hp1 hp2
        rw [hp1, hp2]
      rw [hpeq]
      exact hstep

/-- C6 witness: a one-byte payload fails to decode; the v0 Report keeps the
key with the placeholder entry. -/
theorem c6_witness :
    v0Entry (fun _ => []) (fun _ => []) [] ['x'] [⟨0, [0]⟩] ∈
      processEnhancedData (fun _ => []) (fun _ => []) [] [(['x'], [⟨0, [0]⟩])] ∧
    v0Entry (fun _ => []) (fun _ => []) [] ['x'] [⟨0, [0]⟩] = v0FailEntry [] ['x'] ∧
    (v0FailEntry [] ['x']).ip = ['x'] ∧
    (v0FailEntry [] ['x']).name = utf8Bytes "数据解析失败" ∧
    (v0FailEntry [] ['x']).sentPackets = 0 ∧
    (v0FailEntry [] ['x']).receivedMeta = 0 :=
  c6_failed_decode_entry.1 (fun _ => []) (fun _ => []) [] ['x']
    [(['x'], [⟨0, [0]⟩])] [⟨0, [0]⟩] ⟨0, [0]⟩ ⟨1, 1⟩ (by decide) (by decide) (by decide)

/-- C6 counterexample: the failing key's v0 entry records `receivedMeta = 0`
and the fixed text `解析失败`, although the raw payload size is 1 and the
thrown error names offset 1 — the claim said the entry carries the raw
payload size and the error description. -/
theorem c6_counterexample :
    (processEnhancedData (fun _ => []) (fun _ => []) [] [(['x'], [⟨0, [0]⟩])]).map
      (fun e => (e.receivedMeta, e.sentPackets)) = [(0, 0)] ∧
    ([0] : List Nat).length = 1 ∧
    (processEnhancedData (fun _ => []) (fun _ => []) [] [(['x'], [⟨0, [0]⟩])]).map
      (fun e => e.description) = [utf8Bytes "解析失败"] ∧
    parseServerInfo [0] = .error ⟨1, 1⟩ := by
  decide
